import Mathlib

/-!
# TBitArray (Project Reboot 3.0/BitArray.h)

A shallow embedding of the growable bit array and its two cursors.

* `int32` values are integers kept in range by `wrapInt32` (two's complement wrap-around);
  `uint32` values are naturals kept below `2 ^ 32`.
* `std::vector<uint32>` is a `List Nat`; every word access goes through `readWord`,
  which is `none` outside the vector.  A function that would read or write outside the
  vector, or ask the allocator for a negative number of words, returns `none`.
* A cursor's `IteratedArray` reference is passed as an explicit argument to the
  operations that consult the array.
-/

/-- Two's complement wrap-around of an integer into the `int32` range. -/
def wrapInt32 (x : Int) : Int := (x + 2147483648) % 4294967296 - 2147483648

/-- Conversion of an integer to `uint32`: reduction modulo `2 ^ 32`. -/
def toUInt32 (x : Int) : Nat := (x % 4294967296).toNat

/-- Conversion of a `uint32` to `int32`. -/
def toInt32 (x : Nat) : Int := wrapInt32 (x : Int)

/-- Bitwise `&` of two `int32` values (two's complement). -/
def andInt32 (x y : Int) : Int := toInt32 (toUInt32 x &&& toUInt32 y)

/-- Bitwise `~` of an `int32` value (two's complement). -/
def notInt32 (x : Int) : Int := toInt32 (4294967295 - toUInt32 x)

/-- The `int32` expression `1 << n`. -/
def oneShlInt32 (n : Int) : Int := wrapInt32 ((1 <<< n.toNat : Nat) : Int)

/-- The values an `int32` variable can hold. -/
def IsInt32 (x : Int) : Prop := -2147483648 ≤ x ∧ x ≤ 2147483647

instance (x : Int) : Decidable (IsInt32 x) := by unfold IsInt32; infer_instance

/-- The intrinsic `_BitScanReverse` on a 32-bit mask: the position of the most significant
1 bit, searched from bit 31 downwards; `none` when the mask is zero. -/
def BitScanReverse (Value : Nat) : Option Nat :=
  (List.range 32).reverse.find? (fun i => Value.testBit i)

/-- `CountLeadingZeros(uint32 Value)`. -/
def CountLeadingZeros (Value : Nat) : Nat :=
  match BitScanReverse Value with
  | some Log2 => 31 - Log2
  | none => 32

/-- `NumBitsPerDWORD`. -/
def NumBitsPerDWORD : Int := 32

/-- `NumBitsPerDWORDLogTwo`. -/
def NumBitsPerDWORDLogTwo : Nat := 5

/-- `ArrayData[Index]` on a vector: `none` outside the vector (also for the null pointer of
an empty vector). -/
def readWord (Data : List Nat) (Index : Int) : Option Nat :=
  if 0 ≤ Index then Data[Index.toNat]? else none

/-- `std::vector::resize(Count, 0)`. -/
def resize (Data : List Nat) (Count : Nat) : List Nat :=
  Data.take Count ++ List.replicate (Count - Data.length) 0

/-- `std::fill(Data.begin() + OldSize, Data.end(), 0u)`. -/
def fillFrom (Data : List Nat) (OldSize : Nat) : List Nat :=
  Data.take OldSize ++ List.replicate (Data.length - OldSize) 0

/-- The class `TBitArray`: word storage, logical length and capacity. -/
structure TBitArray where
  Data : List Nat
  NumBits : Int
  MaxBits : Int
  deriving DecidableEq, Repr

namespace TBitArray

/-- The default constructor `TBitArray()`. -/
def empty : TBitArray := { Data := [], NumBits := 0, MaxBits := 0 }

/-- `Num()`. -/
def Num (a : TBitArray) : Int := a.NumBits

/-- `Max()`. -/
def Max (a : TBitArray) : Int := a.MaxBits

/-- `EnsureCapacity(int32 BitIndex)`. -/
def EnsureCapacity (a : TBitArray) (BitIndex : Int) : Option TBitArray :=
  let RequiredBits := wrapInt32 (BitIndex + 1)
  if RequiredBits ≤ a.MaxBits then some a
  else
    let RequiredDWORDs :=
      Int.tdiv (wrapInt32 (wrapInt32 (RequiredBits + NumBitsPerDWORD) - 1)) NumBitsPerDWORD
    let OldSize := a.Data.length
    if RequiredDWORDs < 0 then none
    else
      let Data1 := resize a.Data RequiredDWORDs.toNat
      let Data2 := if Data1.length > OldSize then fillFrom Data1 OldSize else Data1
      some { Data := Data2, NumBits := a.NumBits,
             MaxBits := wrapInt32 (RequiredDWORDs * NumBitsPerDWORD) }

/-- The struct `FRelativeBitReference`: a word index and a one-bit mask. -/
structure FRelativeBitReference where
  DWORDIndex : Int
  Mask : Nat
  deriving DecidableEq, Repr

/-- The constructor `FRelativeBitReference(int32 BitIndex)`. -/
def FRelativeBitReference.ofIndex (BitIndex : Int) : FRelativeBitReference :=
  { DWORDIndex := BitIndex >>> NumBitsPerDWORDLogTwo,
    Mask := toUInt32 (oneShlInt32 (andInt32 BitIndex (NumBitsPerDWORD - 1))) }

/-- `FBitReference::SetBit(Value)` on the referenced word: `Data |= Mask` or `Data &= ~Mask`. -/
def FBitReference.SetBit (Data Mask : Nat) (Value : Bool) : Nat :=
  if Value then Data ||| Mask else Data &&& (4294967295 - Mask)

/-- `FBitReference::operator bool`. -/
def FBitReference.toBool (Data Mask : Nat) : Bool := (Data &&& Mask) != 0

/-- The class `FBitIterator` (dense cursor). -/
structure FBitIterator extends FRelativeBitReference where
  Index : Int
  deriving DecidableEq, Repr

namespace FBitIterator

/-- `FBitIterator(const TBitArray& ToIterate, const int32 StartIndex)`. -/
def Begin (_ToIterate : TBitArray) (StartIndex : Int) : FBitIterator :=
  { toFRelativeBitReference := FRelativeBitReference.ofIndex StartIndex, Index := StartIndex }

/-- `FBitIterator(const TBitArray& ToIterate)`. -/
def End (ToIterate : TBitArray) : FBitIterator :=
  { toFRelativeBitReference := FRelativeBitReference.ofIndex ToIterate.NumBits,
    Index := ToIterate.NumBits }

/-- `explicit operator bool()`. -/
def toBool (IteratedArray : TBitArray) (it : FBitIterator) : Bool :=
  it.Index < IteratedArray.Num

/-- `operator++()`. -/
def next (it : FBitIterator) : FBitIterator :=
  let Index := wrapInt32 (it.Index + 1)
  let Mask := (it.Mask <<< 1) % 4294967296
  if Mask = 0 then
    { DWORDIndex := wrapInt32 (it.DWORDIndex + 1), Mask := 1, Index := Index }
  else
    { DWORDIndex := it.DWORDIndex, Mask := Mask, Index := Index }

/-- `operator*()`. -/
def deref (IteratedArray : TBitArray) (it : FBitIterator) : Option Bool :=
  match readWord IteratedArray.Data it.DWORDIndex with
  | some w => some ((w &&& it.Mask) != 0)
  | none => none

/-- `operator==`. -/
def eq (it OtherIt : FBitIterator) : Bool := it.Index == OtherIt.Index

/-- `operator!=`. -/
def ne (it OtherIt : FBitIterator) : Bool := it.Index < OtherIt.Index

/-- `operator <(const int32 Other)`. -/
def lt (it : FBitIterator) (Other : Int) : Bool := it.Index < Other

/-- `operator >(const int32 Other)`. -/
def gt (it : FBitIterator) (Other : Int) : Bool := it.Index < Other

/-- `GetIndex()`. -/
def GetIndex (it : FBitIterator) : Int := it.Index

end FBitIterator

/-- `IsSet(int32 Index)`. -/
def IsSet (a : TBitArray) (Index : Int) : Option Bool :=
  if Index < 0 ∨ Index ≥ a.NumBits then some false
  else (FBitIterator.Begin a Index).deref a

/-- `Set(const int32 Index, const bool Value, bool bIsSettingAllZero)`. -/
def Set (a : TBitArray) (Index : Int) (Value : Bool) (bIsSettingAllZero : Bool) :
    Option TBitArray :=
  match a.EnsureCapacity Index with
  | none => none
  | some a1 =>
    let DWORDIndex := Index >>> (5 : Nat)
    let Mask : Int := oneShlInt32 (andInt32 Index (32 - 1))
    let NumBits :=
      if !bIsSettingAllZero then
        (if Index ≥ a1.NumBits then wrapInt32 (Index + 1) else a1.NumBits)
      else a1.NumBits
    match readWord a1.Data DWORDIndex with
    | none => none
    | some w =>
      some { Data := a1.Data.set DWORDIndex.toNat (FBitReference.SetBit w (toUInt32 Mask) Value),
             NumBits := NumBits, MaxBits := a1.MaxBits }

/-- `ZeroAll()`: `memset` of the first `DWORDCount` words, then `NumBits = 0`. -/
def ZeroAll (a : TBitArray) : Option TBitArray :=
  let DWORDCount := Int.tdiv (wrapInt32 (wrapInt32 (a.MaxBits + NumBitsPerDWORD) - 1)) NumBitsPerDWORD
  if DWORDCount < 0 ∨ DWORDCount > a.Data.length then none
  else
    some { Data := List.replicate DWORDCount.toNat 0 ++ a.Data.drop DWORDCount.toNat,
           NumBits := 0, MaxBits := a.MaxBits }

/-- The class `FSetBitIterator` (sparse cursor). -/
structure FSetBitIterator extends FRelativeBitReference where
  UnvisitedBitMask : Nat
  CurrentBitIndex : Int
  BaseBitIndex : Int
  deriving DecidableEq, Repr

namespace FSetBitIterator

/-- The body of `FindNextSetBit()` from the `while (!RemainingBitMask)` test onwards: one unit
of fuel is spent per evaluation of the loop condition. -/
def FindNextSetBit.scan (a : TBitArray) (LastDWORDIndex : Int) :
    Nat → FSetBitIterator → Nat → Option FSetBitIterator
  | 0, _, _ => none
  | fuel + 1, it, RemainingBitMask =>
    if RemainingBitMask = 0 then
      let DWORDIndex := wrapInt32 (it.DWORDIndex + 1)
      let BaseBitIndex := wrapInt32 (it.BaseBitIndex + NumBitsPerDWORD)
      if DWORDIndex > LastDWORDIndex then
        some { it with DWORDIndex := DWORDIndex, BaseBitIndex := BaseBitIndex,
                       CurrentBitIndex := a.NumBits }
      else
        match readWord a.Data DWORDIndex with
        | none => none
        | some w =>
          FindNextSetBit.scan a LastDWORDIndex fuel
            { it with DWORDIndex := DWORDIndex, BaseBitIndex := BaseBitIndex,
                      UnvisitedBitMask := 4294967295 } w
    else
      let NewRemainingBitMask := RemainingBitMask &&& (RemainingBitMask - 1)
      let Mask := NewRemainingBitMask ^^^ RemainingBitMask
      let CurrentBitIndex :=
        toInt32 (toUInt32
          (wrapInt32 (wrapInt32 (it.BaseBitIndex + NumBitsPerDWORD) - 1) - CountLeadingZeros Mask))
      some { it with Mask := Mask,
                     CurrentBitIndex :=
                       if CurrentBitIndex > a.NumBits then a.NumBits else CurrentBitIndex }

/-- `FindNextSetBit()`.  The loop visits each word at most once, so one unit of fuel per
word and one more is all it can use. -/
def FindNextSetBit (a : TBitArray) (it : FSetBitIterator) : Option FSetBitIterator :=
  if a.Data.isEmpty then some { it with CurrentBitIndex := a.NumBits }
  else
    let LastDWORDIndex := Int.tdiv (wrapInt32 (a.NumBits - 1)) NumBitsPerDWORD
    match readWord a.Data it.DWORDIndex with
    | none => none
    | some w =>
      FindNextSetBit.scan a LastDWORDIndex (a.Data.length + 1) it (w &&& it.UnvisitedBitMask)

/-- `FSetBitIterator(const TBitArray& ToIterate, int32 StartIndex)`. -/
def Begin (ToIterate : TBitArray) (StartIndex : Int) : Option FSetBitIterator :=
  let it : FSetBitIterator :=
    { toFRelativeBitReference := FRelativeBitReference.ofIndex StartIndex,
      UnvisitedBitMask :=
        (4294967295 <<< (andInt32 StartIndex (NumBitsPerDWORD - 1)).toNat) % 4294967296,
      CurrentBitIndex := StartIndex,
      BaseBitIndex := andInt32 StartIndex (notInt32 (NumBitsPerDWORD - 1)) }
  if StartIndex ≠ ToIterate.NumBits then FindNextSetBit ToIterate it else some it

/-- `FSetBitIterator(const TBitArray& ToIterate)`. -/
def End (ToIterate : TBitArray) : FSetBitIterator :=
  { toFRelativeBitReference := FRelativeBitReference.ofIndex ToIterate.NumBits,
    UnvisitedBitMask := 0,
    CurrentBitIndex := ToIterate.NumBits,
    BaseBitIndex := ToIterate.NumBits }

/-- `operator++()`. -/
def next (IteratedArray : TBitArray) (it : FSetBitIterator) : Option FSetBitIterator :=
  FindNextSetBit IteratedArray
    { it with UnvisitedBitMask := it.UnvisitedBitMask &&& (4294967295 - it.Mask) }

/-- `operator*()`. -/
def deref (_it : FSetBitIterator) : Bool := true

/-- `operator==`. -/
def eq (it Other : FSetBitIterator) : Bool := it.CurrentBitIndex == Other.CurrentBitIndex

/-- `operator!=`. -/
def ne (it Other : FSetBitIterator) : Bool := it.CurrentBitIndex < Other.CurrentBitIndex

/-- `explicit operator bool()`. -/
def toBool (IteratedArray : TBitArray) (it : FSetBitIterator) : Bool :=
  it.CurrentBitIndex < IteratedArray.NumBits

/-- `GetIndex()`. -/
def GetIndex (it : FSetBitIterator) : Int := it.CurrentBitIndex

end FSetBitIterator

/-- `Iterator(int32 StartIndex)`. -/
def Iterator (a : TBitArray) (StartIndex : Int) : FBitIterator := FBitIterator.Begin a StartIndex

/-- `SetBitIterator(int32 StartIndex)`. -/
def SetBitIterator (a : TBitArray) (StartIndex : Int) : Option FSetBitIterator :=
  FSetBitIterator.Begin a StartIndex

/-- `begin()`. -/
def begin_ (a : TBitArray) : FBitIterator := FBitIterator.Begin a 0

/-- `end()`. -/
def end_ (a : TBitArray) : FBitIterator := FBitIterator.End a

/-- `SetBitsItBegin()`. -/
def SetBitsItBegin (a : TBitArray) : Option FSetBitIterator := FSetBitIterator.Begin a 0

/-- `SetBitsItEnd()`. -/
def SetBitsItEnd (a : TBitArray) : FSetBitIterator := FSetBitIterator.End a

/-- The caller's loop `for (it = start; it; ++it) visit(it.GetIndex(), *it)` over a dense
cursor: the visited (index, value) pairs and the cursor the loop stops at.  One unit of fuel
is spent per advance. -/
def denseLoop (a : TBitArray) : Nat → FBitIterator → Option (List (Int × Bool) × FBitIterator)
  | 0, it => if it.toBool a then none else some ([], it)
  | fuel + 1, it =>
    if it.toBool a then
      match it.deref a with
      | none => none
      | some v =>
        match denseLoop a fuel it.next with
        | none => none
        | some (vs, e) => some ((it.GetIndex, v) :: vs, e)
    else some ([], it)

/-- The caller's loop `for (it = start; it; ++it) visit(it.GetIndex())` over a sparse cursor:
the visited indices and the cursor the loop stops at.  One unit of fuel is spent per advance. -/
def sparseLoop (a : TBitArray) : Nat → FSetBitIterator → Option (List Int × FSetBitIterator)
  | 0, it => if it.toBool a then none else some ([], it)
  | fuel + 1, it =>
    if it.toBool a then
      match it.next a with
      | none => none
      | some it1 =>
        match sparseLoop a fuel it1 with
        | none => none
        | some (vs, e) => some (it.GetIndex :: vs, e)
    else some ([], it)

/-- A full dense traversal from `StartIndex`; no more advances than logical bits are needed. -/
def denseTraversal (a : TBitArray) (StartIndex : Int) : Option (List (Int × Bool) × FBitIterator) :=
  denseLoop a a.NumBits.toNat (a.Iterator StartIndex)

/-- A full sparse traversal from `StartIndex`; no more advances than logical bits are needed. -/
def sparseTraversal (a : TBitArray) (StartIndex : Int) : Option (List Int × FSetBitIterator) :=
  match a.SetBitIterator StartIndex with
  | none => none
  | some it => sparseLoop a a.NumBits.toNat it

/-- The storage bit at a logical index, read directly from the words (no length check). -/
def storageBit (a : TBitArray) (Index : Nat) : Bool :=
  match a.Data[Index / 32]? with
  | some w => w.testBit (Index % 32)
  | none => false

/-- Values of type `int32` and words of type `uint32` throughout the object. -/
def WellTyped (a : TBitArray) : Prop :=
  IsInt32 a.NumBits ∧ IsInt32 a.MaxBits ∧ ∀ w ∈ a.Data, w < 4294967296

/-- The structural invariant: `MaxBits = 32 * Data.size()` and `0 <= NumBits <= MaxBits`. -/
def Invariant (a : TBitArray) : Prop :=
  a.MaxBits = 32 * (a.Data.length : Int) ∧ 0 ≤ a.NumBits ∧ a.NumBits ≤ a.MaxBits

instance (a : TBitArray) : Decidable (WellTyped a) := by unfold WellTyped; infer_instance

instance (a : TBitArray) : Decidable (Invariant a) := by unfold Invariant; infer_instance

/-- Abstraction of a sparse cursor's scan state: the cursor is in word `d`, whose base index it
holds, and within that word exactly the storage bits at logical positions `q` and above are
still unvisited. -/
def ScanAt (a : TBitArray) (it : FSetBitIterator) (q : Nat) : Prop :=
  ∃ d : Nat, it.DWORDIndex = (d : Int) ∧ it.BaseBitIndex = 32 * (d : Int)
    ∧ 32 * d ≤ q ∧ q ≤ 32 * d + 32 ∧ (q : Int) ≤ a.NumBits ∧ 32 * (d : Int) < a.NumBits
    ∧ it.UnvisitedBitMask < 4294967296
    ∧ ∀ b, b < 32 → (a.Data.getD d 0 &&& it.UnvisitedBitMask).testBit b
        = ((a.Data.getD d 0).testBit b && decide (q ≤ 32 * d + b))

/-- A sparse cursor in a state the scan can continue from: it is at the end (`NumBits`), or it
sits on a set storage bit below `NumBits` with its word index, mask and unvisited bits
describing exactly that position. -/
def FSetBitIterator.Valid (a : TBitArray) (it : FSetBitIterator) : Prop :=
  ∃ c : Nat, it.CurrentBitIndex = (c : Int) ∧ (c : Int) ≤ a.NumBits
    ∧ ((c : Int) < a.NumBits →
        a.storageBit c = true ∧ it.Mask = 2 ^ (c % 32) ∧ it.DWORDIndex = ((c / 32 : Nat) : Int)
          ∧ a.ScanAt it c)

/-- The sparse cursor obtained from `SetBitIterator(StartIndex)` by `k` applications of `++`,
each one applied to a cursor whose boolean conversion is true (`none` when an advance from an
end cursor is asked for, or when a step fails). -/
def sparseAfter (a : TBitArray) (StartIndex : Int) : Nat → Option FSetBitIterator
  | 0 => a.SetBitIterator StartIndex
  | k + 1 =>
    match sparseAfter a StartIndex k with
    | none => none
    | some it => if it.toBool a then it.next a else none

/-- One call of `Set`: its index, its value and its `bIsSettingAllZero` flag. -/
structure SetCall where
  Index : Int
  Value : Bool
  bIsSettingAllZero : Bool
  deriving DecidableEq, Repr

/-- A sequence of `Set` calls applied in order to an array. -/
def applyCalls : List SetCall → TBitArray → Option TBitArray
  | [], a => some a
  | c :: cs, a =>
    match a.Set c.Index c.Value c.bIsSettingAllZero with
    | none => none
    | some b => applyCalls cs b

/-- The local `LastDWORDIndex` of `FindNextSetBit()`. -/
def FSetBitIterator.LastDWORDIndex (a : TBitArray) : Int :=
  Int.tdiv (wrapInt32 (a.NumBits - 1)) NumBitsPerDWORD

end TBitArray

/-! ## Machine arithmetic and word-level lemmas -/

namespace TBitArray

theorem wrapInt32_of_isInt32 {x : Int} (h : IsInt32 x) : wrapInt32 x = x := by
  unfold IsInt32 at h; unfold wrapInt32; omega

theorem toUInt32_natCast {n : Nat} (h : n < 4294967296) : toUInt32 (n : Int) = n := by
  unfold toUInt32; omega

theorem toInt32_small {n : Nat} (h : n < 2147483648) : toInt32 n = (n : Int) := by
  unfold toInt32 wrapInt32; omega

theorem andInt32_low (n : Nat) (h : n < 2147483648) :
    andInt32 (n : Int) (NumBitsPerDWORD - 1) = ((n % 32 : Nat) : Int) := by
  unfold andInt32 NumBitsPerDWORD
  have h1 : toUInt32 ((32 : Int) - 1) = 2 ^ 5 - 1 := by decide
  rw [toUInt32_natCast (by omega), h1, Nat.and_pow_two_sub_one_eq_mod]
  exact toInt32_small (by omega)

theorem shiftRight_five (n : Nat) : ((n : Int) >>> (5 : Nat)) = ((n / 32 : Nat) : Int) := by
  rw [Int.shiftRight_eq_div_pow]; norm_num

theorem toUInt32_oneShlInt32 : ∀ k : Nat, k < 32 → toUInt32 (oneShlInt32 (k : Int)) = 2 ^ k := by
  decide

theorem and_two_pow_ne_zero (w p : Nat) : ((w &&& 2 ^ p) != 0) = w.testBit p := by
  rw [Nat.land_comm, Nat.two_pow_and]
  cases h : w.testBit p <;> simp

theorem testBit_setBit_true (w p b : Nat) :
    (FBitReference.SetBit w (2 ^ p) true).testBit b = (w.testBit b || decide (p = b)) := by
  simp [FBitReference.SetBit, Nat.testBit_or, Nat.testBit_two_pow]

theorem testBit_setBit_false (w p b : Nat) (hp : p < 32) :
    (FBitReference.SetBit w (2 ^ p) false).testBit b
      = (w.testBit b && decide (b < 32) && !decide (p = b)) := by
  have h2 : (2:Nat) ^ p < 2 ^ 32 := Nat.pow_lt_pow_right (by omega) hp
  have h3 : 4294967295 - 2 ^ p = 2 ^ 32 - (2 ^ p + 1) := by omega
  simp only [FBitReference.SetBit, Bool.false_eq_true, if_false, Nat.testBit_and, h3]
  rw [Nat.testBit_two_pow_sub_succ h2, Nat.testBit_two_pow]
  cases w.testBit b <;> simp

theorem setBit_lt (w p : Nat) (v : Bool) (hw : w < 4294967296) (hp : p < 32) :
    FBitReference.SetBit w (2 ^ p) v < 4294967296 := by
  have h2 : (2:Nat) ^ p < 2 ^ 32 := Nat.pow_lt_pow_right (by omega) hp
  unfold FBitReference.SetBit
  split
  · exact Nat.or_lt_two_pow (n := 32) hw h2
  · exact lt_of_le_of_lt Nat.and_le_left hw

theorem resize_grow (Data : List Nat) (k : Nat) (h : Data.length ≤ k) :
    resize Data k = Data ++ List.replicate (k - Data.length) 0 := by
  unfold resize; rw [List.take_of_length_le h]

theorem fillFrom_grow (Data : List Nat) (m : Nat) :
    fillFrom (Data ++ List.replicate m 0) Data.length = Data ++ List.replicate m 0 := by
  unfold fillFrom; simp

theorem tdiv_wrap_add (x : Int) (h0 : 0 ≤ x) (h1 : x ≤ 2147483616) :
    Int.tdiv (wrapInt32 (wrapInt32 (x + NumBitsPerDWORD) - 1)) NumBitsPerDWORD = (x + 31) / 32 := by
  have h : wrapInt32 (wrapInt32 (x + NumBitsPerDWORD) - 1) = x + 31 := by
    unfold wrapInt32 NumBitsPerDWORD; omega
  rw [h, NumBitsPerDWORD, Int.tdiv_eq_ediv (by omega) (by omega)]

theorem maxBits_le {a : TBitArray} (hT : a.WellTyped) (hI : a.Invariant) :
    a.MaxBits ≤ 2147483616 := by
  obtain ⟨-, ⟨-, h2⟩, -⟩ := hT
  obtain ⟨h3, -, -⟩ := hI
  omega

theorem ensureCapacity_eq {a : TBitArray} (hT : a.WellTyped) (hI : a.Invariant) (n : Nat)
    (hn : n < 2147483616) :
    a.EnsureCapacity (n : Int) =
      some { Data := a.Data ++ List.replicate (n / 32 + 1 - a.Data.length) 0,
             NumBits := a.NumBits,
             MaxBits := max a.MaxBits (32 * ((n / 32 + 1 : Nat) : Int)) } := by
  have hM := maxBits_le hT hI
  obtain ⟨h3, h4, h5⟩ := hI
  have hw : wrapInt32 ((n : Int) + 1) = (n : Int) + 1 := by unfold wrapInt32; omega
  unfold EnsureCapacity
  simp only [hw]
  split
  · next hle =>
    have h6 : n / 32 + 1 - a.Data.length = 0 := by omega
    have h7 : max a.MaxBits (32 * ((n / 32 + 1 : Nat) : Int)) = a.MaxBits := by
      apply max_eq_left; push_cast; omega
    rw [h6, h7]; simp
  · next hgt =>
    rw [tdiv_wrap_add _ (by omega) (by omega)]
    have h8 : ((n : Int) + 1 + 31) / 32 = ((n / 32 + 1 : Nat) : Int) := by push_cast; omega
    rw [h8]
    have h9 : a.Data.length ≤ n / 32 + 1 := by omega
    have h10 : a.Data.length < n / 32 + 1 := by omega
    have h11 : wrapInt32 (((n / 32 + 1 : Nat) : Int) * NumBitsPerDWORD)
        = max a.MaxBits (32 * ((n / 32 + 1 : Nat) : Int)) := by
      rw [max_eq_right (by push_cast; omega)]
      unfold wrapInt32 NumBitsPerDWORD; push_cast; omega
    simp only [Int.toNat_ofNat, resize_grow _ _ h9, h11]
    rw [if_neg (by omega)]
    simp only [List.length_append, List.length_replicate]
    rw [if_pos (by omega), fillFrom_grow]

theorem readWord_natCast (Data : List Nat) (k : Nat) : readWord Data (k : Int) = Data[k]? := by
  simp [readWord]

theorem getD_append_replicate_zero (Data : List Nat) (m k : Nat) :
    (Data ++ List.replicate m 0).getD k 0 = Data.getD k 0 := by
  simp only [List.getD_eq_getElem?_getD]
  by_cases h : k < Data.length
  · rw [List.getElem?_append_left h]
  · rw [List.getElem?_append_right (by omega), List.getElem?_eq_none (l := Data) (by omega)]
    simp only [List.getElem?_replicate]
    split <;> rfl

theorem set_spec {a : TBitArray} (hT : a.WellTyped) (hI : a.Invariant) (n : Nat)
    (hn : n < 2147483616) (v f : Bool) :
    ∃ b, a.Set (n : Int) v f = some b
      ∧ b.NumBits = (if f then a.NumBits else max a.NumBits ((n : Int) + 1))
      ∧ b.MaxBits = max a.MaxBits (32 * ((n / 32 + 1 : Nat) : Int))
      ∧ b.Data.length = max a.Data.length (n / 32 + 1)
      ∧ ∀ k, b.Data.getD k 0 =
          if k = n / 32 then FBitReference.SetBit (a.Data.getD k 0) (2 ^ (n % 32)) v
          else a.Data.getD k 0 := by
  have hlen : n / 32 < (a.Data ++ List.replicate (n / 32 + 1 - a.Data.length) 0).length := by
    simp only [List.length_append, List.length_replicate]; omega
  have hmask : toUInt32 (oneShlInt32 (andInt32 (n : Int) (32 - 1))) = 2 ^ (n % 32) := by
    have := andInt32_low n (by omega)
    unfold NumBitsPerDWORD at this
    rw [this]; exact toUInt32_oneShlInt32 _ (Nat.mod_lt _ (by omega))
  have hw : wrapInt32 ((n : Int) + 1) = (n : Int) + 1 := by unfold wrapInt32; omega
  have hget : (a.Data ++ List.replicate (n / 32 + 1 - a.Data.length) 0)[n / 32]?
      = some (a.Data.getD (n / 32) 0) := by
    rw [← getD_append_replicate_zero a.Data (n / 32 + 1 - a.Data.length) (n / 32),
      List.getD_eq_getElem?_getD, List.getElem?_eq_getElem hlen]
    rfl
  unfold TBitArray.Set
  rw [ensureCapacity_eq hT hI n hn]
  simp only [shiftRight_five, readWord_natCast, hmask, hw, Int.toNat_ofNat, hget]
  refine ⟨_, rfl, ?_, rfl, ?_, ?_⟩
  · cases f
    · simp only [Bool.not_false, if_true, Bool.false_eq_true, if_false]
      by_cases h : (n : Int) ≥ a.NumBits
      · rw [if_pos h, max_eq_right (by omega)]
      · rw [if_neg h, max_eq_left (by omega)]
    · simp
  · simp only [List.length_set, List.length_append, List.length_replicate]; omega
  · intro k
    simp only [List.getD_eq_getElem?_getD, List.getElem?_set]
    by_cases hk : k = n / 32
    · subst hk
      rw [if_pos rfl, if_pos rfl, if_pos hlen]
      rfl
    · rw [if_neg (Ne.symm hk), if_neg hk]
      have := getD_append_replicate_zero a.Data (n / 32 + 1 - a.Data.length) k
      simpa only [List.getD_eq_getElem?_getD] using this

theorem storageBit_eq_getD (a : TBitArray) (j : Nat) :
    a.storageBit j = (a.Data.getD (j / 32) 0).testBit (j % 32) := by
  unfold storageBit
  rw [List.getD_eq_getElem?_getD]
  cases a.Data[j / 32]? <;> simp

theorem ofIndex_natCast (n : Nat) (hn : n < 2147483648) :
    FRelativeBitReference.ofIndex (n : Int) = { DWORDIndex := ((n / 32 : Nat) : Int), Mask := 2 ^ (n % 32) } := by
  unfold FRelativeBitReference.ofIndex NumBitsPerDWORDLogTwo
  rw [andInt32_low n hn, toUInt32_oneShlInt32 _ (Nat.mod_lt _ (by omega)), shiftRight_five]

theorem isSet_eq {a : TBitArray} (hT : a.WellTyped) (hI : a.Invariant) (j : Int) :
    a.IsSet j = some (decide (0 ≤ j ∧ j < a.NumBits) && a.storageBit j.toNat) := by
  have hM := maxBits_le hT hI
  obtain ⟨h3, h4, h5⟩ := hI
  unfold IsSet
  by_cases h : j < 0 ∨ j ≥ a.NumBits
  · rw [if_pos h]
    have : ¬ (0 ≤ j ∧ j < a.NumBits) := by omega
    simp [this]
  · rw [if_neg h]
    have h' : 0 ≤ j ∧ j < a.NumBits := by omega
    obtain ⟨n, rfl⟩ := Int.eq_ofNat_of_zero_le h'.1
    have hlen : n / 32 < a.Data.length := by omega
    simp only [FBitIterator.deref, FBitIterator.Begin, ofIndex_natCast n (by omega),
      readWord_natCast, List.getElem?_eq_getElem hlen, and_two_pow_ne_zero, Int.toNat_ofNat,
      storageBit]
    simp [h']

theorem set_wellTyped {a b : TBitArray} (hT : a.WellTyped) (hI : a.Invariant) (n : Nat)
    (hn : n < 2147483616) (v f : Bool) (hb : a.Set (n : Int) v f = some b) : b.WellTyped := by
  obtain ⟨b', hb', hN, hM, hL, hD⟩ := set_spec hT hI n hn v f
  rw [hb] at hb'; cases hb'
  have hMx := maxBits_le hT hI
  obtain ⟨h1, h2, h3⟩ := hT
  obtain ⟨h4, h5, h6⟩ := hI
  unfold IsInt32 at h1 h2
  refine ⟨?_, ?_, ?_⟩
  · rw [hN]; unfold IsInt32; split <;> omega
  · rw [hM]; unfold IsInt32; push_cast; omega
  · intro w hw
    obtain ⟨k, hk, rfl⟩ := List.getElem_of_mem hw
    have hk2 : b.Data[k] = b.Data.getD k 0 := by
      rw [List.getD_eq_getElem?_getD, List.getElem?_eq_getElem hk]; rfl
    rw [hk2, hD k]
    have hold : a.Data.getD k 0 < 4294967296 := by
      rw [List.getD_eq_getElem?_getD]
      by_cases hk3 : k < a.Data.length
      · rw [List.getElem?_eq_getElem hk3]; exact h3 _ (List.getElem_mem _)
      · rw [List.getElem?_eq_none (by omega)]; simp
    split
    · exact setBit_lt _ _ _ hold (Nat.mod_lt _ (by omega))
    · exact hold

theorem set_invariant {a b : TBitArray} (hT : a.WellTyped) (hI : a.Invariant) (n : Nat)
    (hn : n < 2147483616) (v f : Bool) (hb : a.Set (n : Int) v f = some b) : b.Invariant := by
  obtain ⟨b', hb', hN, hM, hL, hD⟩ := set_spec hT hI n hn v f
  rw [hb] at hb'; cases hb'
  obtain ⟨h4, h5, h6⟩ := hI
  refine ⟨?_, ?_, ?_⟩
  · rw [hM, hL]; push_cast; omega
  · rw [hN]; split <;> omega
  · rw [hN, hM]; push_cast; split <;> omega

end TBitArray

/-! ## The sparse scan -/

namespace TBitArray

theorem exists_lowest_bit : ∀ R : Nat, R ≠ 0 → ∃ p A, R = 2 ^ (p + 1) * A + 2 ^ p := by
  intro R
  induction R using Nat.strong_induction_on with
  | _ R ih =>
    intro hR
    by_cases hodd : R % 2 = 1
    · exact ⟨0, R / 2, by omega⟩
    · obtain ⟨p, A, h⟩ := ih (R / 2) (by omega) (by omega)
      refine ⟨p + 1, A, ?_⟩
      have : R = 2 * (R / 2) := by omega
      rw [this, h, pow_succ 2 (p + 1), pow_succ 2 p]; ring

theorem lowest_bit_isolate (R : Nat) (hR : R ≠ 0) (hlt : R < 4294967296) :
    ∃ p, p < 32 ∧ (R &&& (R - 1)) ^^^ R = 2 ^ p ∧ R.testBit p = true
      ∧ ∀ b, b < p → R.testBit b = false := by
  obtain ⟨p, A, h⟩ := exists_lowest_bit R hR
  have hp1 : (2:Nat) ^ p < 2 ^ (p + 1) := Nat.pow_lt_pow_right (by omega) (by omega)
  have hpos : 0 < (2:Nat) ^ p := Nat.pos_pow_of_pos _ (by omega)
  have hR1 : R - 1 = 2 ^ (p + 1) * A + (2 ^ p - 1) := by omega
  have tR : ∀ j, R.testBit j = if j < p + 1 then decide (p = j) else A.testBit (j - (p + 1)) := by
    intro j; rw [h, Nat.testBit_mul_pow_two_add A hp1 j, Nat.testBit_two_pow]
  have tR1 : ∀ j, (R - 1).testBit j
      = if j < p + 1 then decide (j < p) else A.testBit (j - (p + 1)) := by
    intro j
    rw [hR1, Nat.testBit_mul_pow_two_add A (by omega) j, Nat.testBit_two_pow_sub_one]
  refine ⟨p, ?_, ?_, ?_, ?_⟩
  · by_contra hge
    have : (2:Nat) ^ 32 ≤ 2 ^ p := Nat.pow_le_pow_right (by omega) (by omega)
    have : 2 ^ p ≤ R := by rw [h]; omega
    omega
  · apply Nat.eq_of_testBit_eq
    intro j
    rw [Nat.testBit_xor, Nat.testBit_and, tR, tR1, Nat.testBit_two_pow]
    by_cases h1 : j < p + 1
    · simp only [h1, if_true]
      by_cases h2 : p = j
      · subst h2; simp
      · have : j < p := by omega
        simp [h2, this]
    · have : ¬ p = j := by omega
      simp only [h1, if_false, this, decide_False]
      cases A.testBit (j - (p + 1)) <;> rfl
  · rw [tR]; simp
  · intro b hb; rw [tR]
    have : ¬ p = b := by omega
    simp [this]; omega

theorem countLeadingZeros_two_pow : ∀ p : Nat, p < 32 → CountLeadingZeros (2 ^ p) = 31 - p := by
  decide

theorem readWord_getD (Data : List Nat) (d : Nat) (h : d < Data.length) :
    readWord Data (d : Int) = some (Data.getD d 0) := by
  rw [readWord_natCast, List.getD_eq_getElem?_getD, List.getElem?_eq_getElem h]; rfl

theorem found_index (d p : Nat) (hp : p < 32) (B : Int) (h2 : B = 32 * (d : Int))
    (hd : 32 * d < 2147483616) :
    toInt32 (toUInt32 (wrapInt32 (wrapInt32 (B + NumBitsPerDWORD) - 1) - ((31 - p : Nat) : Int)))
      = ((32 * d + p : Nat) : Int) := by
  rw [h2]; unfold toInt32 toUInt32 wrapInt32 NumBitsPerDWORD; push_cast; omega

theorem window_arith (g d p q : Nat) (h3 : 32 * d ≤ q) (hg1 : q ≤ g) (hg2 : g < 32 * d + p)
    (hp : p ≤ 32) : g % 32 < p ∧ g / 32 = d ∧ q ≤ 32 * d + g % 32 := by
  omega

theorem scan_spec {a : TBitArray} (hT : a.WellTyped) (hI : a.Invariant) (N : Nat)
    (hN : a.NumBits = (N : Int)) :
    ∀ (fuel : Nat) (it : FSetBitIterator) (q d : Nat),
      it.DWORDIndex = (d : Int) → it.BaseBitIndex = 32 * (d : Int) → 32 * d ≤ q →
      q ≤ 32 * d + 32 → q ≤ N → 32 * d < N → it.UnvisitedBitMask < 4294967296 →
      (∀ b, b < 32 → (a.Data.getD d 0 &&& it.UnvisitedBitMask).testBit b
          = ((a.Data.getD d 0).testBit b && decide (q ≤ 32 * d + b))) →
      (N - 1) / 32 + 1 - d ≤ fuel →
      ∃ (it1 : FSetBitIterator) (c : Nat), FSetBitIterator.FindNextSetBit.scan a (((N - 1) / 32 : Nat) : Int) fuel it
            (a.Data.getD d 0 &&& it.UnvisitedBitMask) = some it1
        ∧ it1.CurrentBitIndex = (c : Int) ∧ q ≤ c ∧ c ≤ N
        ∧ (∀ g, q ≤ g → g < c → a.storageBit g = false)
        ∧ (c < N → a.storageBit c = true ∧ it1.Mask = 2 ^ (c % 32)
            ∧ it1.DWORDIndex = ((c / 32 : Nat) : Int) ∧ a.ScanAt it1 c) := by
  have hM := maxBits_le hT hI
  obtain ⟨hI1, hI2, hI3⟩ := hI
  intro fuel
  induction fuel with
  | zero =>
    intro it q d _ _ _ _ _ h6 _ _ h9
    omega
  | succ fuel ih =>
    intro it q d h1 h2 h3 h4 h5 h6 h7 h8 h9
    rw [FSetBitIterator.FindNextSetBit.scan]
    by_cases hR : a.Data.getD d 0 &&& it.UnvisitedBitMask = 0
    · rw [if_pos hR]
      have hnone : ∀ g, q ≤ g → g < 32 * d + 32 → a.storageBit g = false := by
        intro g hg1 hg2
        have hb := h8 (g % 32) (Nat.mod_lt _ (by omega))
        rw [hR, Nat.zero_testBit] at hb
        have hd : g / 32 = d := by omega
        rw [storageBit_eq_getD, hd]
        have : q ≤ 32 * d + g % 32 := by omega
        simpa [this] using hb.symm
      have hw1 : wrapInt32 (it.DWORDIndex + 1) = ((d + 1 : Nat) : Int) := by
        rw [h1]; unfold wrapInt32; push_cast; omega
      have hw2 : wrapInt32 (it.BaseBitIndex + NumBitsPerDWORD) = 32 * ((d + 1 : Nat) : Int) := by
        rw [h2]; unfold wrapInt32 NumBitsPerDWORD; push_cast; omega
      simp only [hw1, hw2]
      clear hw1 hw2
      by_cases hlast : ((d + 1 : Nat) : Int) > (((N - 1) / 32 : Nat) : Int)
      · rw [if_pos hlast]
        refine ⟨_, N, rfl, hN, h5, le_refl _, ?_, fun h => absurd h (lt_irrefl _)⟩
        intro g hg1 hg2
        exact hnone g hg1 (by omega)
      · rw [if_neg hlast]
        have hd1 : d + 1 < a.Data.length := by omega
        rw [readWord_getD _ _ hd1]
        have hU : a.Data.getD (d + 1) 0 = a.Data.getD (d + 1) 0 &&& 4294967295 := by
          have hw : a.Data.getD (d + 1) 0 < 2 ^ 32 := by
            rw [List.getD_eq_getElem?_getD, List.getElem?_eq_getElem hd1]
            exact hT.2.2 _ (List.getElem_mem _)
          exact (Nat.and_pow_two_sub_one_of_lt_two_pow hw).symm
        simp only []
        rw [hU]
        obtain ⟨it1, c, e1, e2, e3, e4, e5, e6⟩ :=
          ih { it with DWORDIndex := ((d + 1 : Nat) : Int), BaseBitIndex := 32 * ((d + 1 : Nat) : Int),
                       UnvisitedBitMask := 4294967295 }
            (32 * (d + 1)) (d + 1) rfl rfl (le_refl _) (by omega) (by omega) (by omega)
            (by norm_num)
            (by
              intro b hb
              rw [← hU]; simp)
            (by omega)
        refine ⟨it1, c, e1, e2, by omega, e4, ?_, e6⟩
        intro g hg1 hg2
        by_cases hg3 : g < 32 * d + 32
        · exact hnone g hg1 hg3
        · exact e5 g (by omega) hg2
    · rw [if_neg hR]
      have hRlt : a.Data.getD d 0 &&& it.UnvisitedBitMask < 4294967296 :=
        lt_of_le_of_lt Nat.and_le_right h7
      obtain ⟨p, hp, hmask, hbit, hlow⟩ := lowest_bit_isolate _ hR hRlt
      have hqp : q ≤ 32 * d + p := by
        have hb := h8 p hp
        rw [hbit] at hb
        by_contra hcon
        simp [hcon] at hb
      have hwp : (a.Data.getD d 0).testBit p = true := by
        have hb := h8 p hp
        rw [hbit] at hb
        simpa [hqp] using hb.symm
      have hraw : toInt32 (toUInt32 (wrapInt32 (wrapInt32 (it.BaseBitIndex + NumBitsPerDWORD) - 1)
          - ((31 - p : Nat) : Int))) = ((32 * d + p : Nat) : Int) :=
        found_index d p hp _ h2 (by omega)
      simp only [hmask, countLeadingZeros_two_pow p hp, hraw]
      clear hraw
      have hbelow : ∀ g, q ≤ g → g < 32 * d + p → a.storageBit g = false := by
        intro g hg1 hg2
        obtain ⟨w1, w2, w3⟩ := window_arith g d p q h3 hg1 hg2 (le_of_lt hp)
        have hb := h8 (g % 32) (lt_trans w1 hp)
        rw [hlow (g % 32) w1] at hb
        rw [storageBit_eq_getD, w2]
        simpa [w3] using hb.symm
      by_cases hclamp : ((32 * d + p : Nat) : Int) > a.NumBits
      · rw [if_pos hclamp]
        refine ⟨_, N, rfl, hN, h5, le_refl _, ?_, fun h => absurd h (lt_irrefl _)⟩
        intro g hg1 hg2
        exact hbelow g hg1 (by omega)
      · rw [if_neg hclamp]
        refine ⟨_, 32 * d + p, rfl, rfl, hqp, by omega, hbelow, ?_⟩
        intro hc
        have hdiv : (32 * d + p) / 32 = d := by omega
        have hmod : (32 * d + p) % 32 = p := by omega
        refine ⟨?_, ?_, ?_, ?_⟩
        · rw [storageBit_eq_getD, hdiv, hmod]; exact hwp
        · rw [hmod]
        · rw [hdiv]; exact h1
        · refine ⟨d, h1, h2, by omega, by omega, by omega, by omega, h7, ?_⟩
          intro b hb
          by_cases hbp : b < p
          · rw [hlow b hbp]
            have : ¬ (32 * d + p ≤ 32 * d + b) := by omega
            simp [this]
          · rw [h8 b hb]
            have e1 : q ≤ 32 * d + b := by omega
            have e2 : 32 * d + p ≤ 32 * d + b := by omega
            simp [e1, e2]

theorem and_not_31 (s : Nat) (hs : s < 4294967296) : s &&& 4294967264 = 32 * (s / 32) := by
  apply Nat.eq_of_testBit_eq
  intro i
  have e1 : (4294967264 : Nat) = 2 ^ 32 - (31 + 1) := by norm_num
  have e2 : (31 : Nat) = 2 ^ 5 - 1 := by norm_num
  have e3 : 32 * (s / 32) = (s >>> 5) <<< 5 := by
    rw [Nat.shiftLeft_eq, Nat.shiftRight_eq_div_pow]; norm_num; ring
  rw [Nat.testBit_and, e1, Nat.testBit_two_pow_sub_succ (by norm_num), e3, Nat.testBit_shiftLeft,
    Nat.testBit_shiftRight]
  have e5 : Nat.testBit 31 i = decide (i < 5) := by
    rw [e2, Nat.testBit_two_pow_sub_one]
  rw [e5]
  by_cases h5 : i < 5
  · have : ¬ i ≥ 5 := by omega
    simp [h5, this]
  · have h5' : i ≥ 5 := by omega
    have e4 : 5 + (i - 5) = i := by omega
    by_cases h32 : i < 32
    · simp [h5, h5', h32, e4]
    · have : s.testBit i = false := by
        apply Nat.testBit_lt_two_pow
        have h6 : (2 : Nat) ^ 32 ≤ 2 ^ i := Nat.pow_le_pow_right (by norm_num) (by omega)
        have h7 : s < 2 ^ 32 := by norm_num; exact hs
        exact lt_of_lt_of_le h7 h6
      simp [h5, h5', h32, e4, this]

theorem andInt32_base (s : Nat) (hs : s < 2147483648) :
    andInt32 (s : Int) (notInt32 (NumBitsPerDWORD - 1)) = 32 * ((s / 32 : Nat) : Int) := by
  have e1 : toUInt32 (notInt32 (NumBitsPerDWORD - 1)) = 4294967264 := by decide
  unfold andInt32
  rw [e1, toUInt32_natCast (by omega), and_not_31 s (by omega)]
  rw [toInt32_small (by omega)]; rfl

theorem testBit_initial_mask (k b : Nat) (hb : b < 32) :
    ((4294967295 <<< k) % 4294967296).testBit b = decide (k ≤ b) := by
  have e1 : (4294967296 : Nat) = 2 ^ 32 := by norm_num
  have e2 : (4294967295 : Nat) = 2 ^ 32 - 1 := by norm_num
  rw [e1, Nat.testBit_mod_two_pow, Nat.testBit_shiftLeft, e2, Nat.testBit_two_pow_sub_one]
  by_cases h : k ≤ b
  · have : b - k < 32 := by omega
    simp [hb, h, this]
  · simp [hb, h]

theorem last_index (N : Nat) (hN : 0 < N) (hN2 : N ≤ 2147483616) :
    Int.tdiv (wrapInt32 ((N : Int) - 1)) NumBitsPerDWORD = (((N - 1) / 32 : Nat) : Int) := by
  have h : wrapInt32 ((N : Int) - 1) = ((N - 1 : Nat) : Int) := by
    unfold wrapInt32; omega
  rw [h, NumBitsPerDWORD, Int.tdiv_eq_ediv (by omega) (by omega)]
  norm_cast

theorem findNextSetBit_spec {a : TBitArray} (hT : a.WellTyped) (hI : a.Invariant)
    (it : FSetBitIterator) (q : Nat) (hS : a.ScanAt it q) :
    ∃ (it1 : FSetBitIterator) (c : Nat), FSetBitIterator.FindNextSetBit a it = some it1
      ∧ it1.CurrentBitIndex = (c : Int) ∧ q ≤ c ∧ (c : Int) ≤ a.NumBits
      ∧ (∀ g, q ≤ g → g < c → a.storageBit g = false)
      ∧ ((c : Int) < a.NumBits → a.storageBit c = true ∧ it1.Mask = 2 ^ (c % 32)
          ∧ it1.DWORDIndex = ((c / 32 : Nat) : Int) ∧ a.ScanAt it1 c) := by
  have hM := maxBits_le hT hI
  obtain ⟨d, h1, h2, h3, h4, h5, h6, h7, h8⟩ := hS
  obtain ⟨N, hN⟩ := Int.eq_ofNat_of_zero_le hI.2.1
  have hI1 := hI.1
  have hI3 := hI.2.2
  have hlen : d < a.Data.length := by omega
  have hne : a.Data.isEmpty = false := by
    cases hD : a.Data with
    | nil => rw [hD] at hlen; simp at hlen
    | cons x xs => rfl
  unfold FSetBitIterator.FindNextSetBit
  rw [hne, hN, last_index N (by omega) (by omega), h1, readWord_getD _ _ hlen]
  simp only [Bool.false_eq_true, if_false]
  obtain ⟨it1, c, e1, e2, e3, e4, e5, e6⟩ :=
    scan_spec hT hI N hN (a.Data.length + 1) it q d h1 h2 h3 h4 (by omega) (by omega) h7 h8
      (by omega)
  refine ⟨it1, c, e1, e2, e3, by omega, e5, ?_⟩
  intro hc
  exact e6 (by omega)

theorem begin_spec {a : TBitArray} (hT : a.WellTyped) (hI : a.Invariant) (s : Nat)
    (hs : (s : Int) ≤ a.NumBits) :
    ∃ (it : FSetBitIterator) (c : Nat), FSetBitIterator.Begin a (s : Int) = some it
      ∧ it.Valid a ∧ it.CurrentBitIndex = (c : Int) ∧ s ≤ c
      ∧ ∀ g, s ≤ g → g < c → a.storageBit g = false := by
  have hM := maxBits_le hT hI
  have hI3 := hI.2.2
  unfold FSetBitIterator.Begin
  by_cases hEnd : (s : Int) = a.NumBits
  · simp only [hEnd, ne_eq, not_true_eq_false, if_false]
    refine ⟨_, s, rfl, ⟨s, hEnd.symm, by omega, fun h => by omega⟩, hEnd.symm, le_refl _, ?_⟩
    intro g h1 h2; omega
  · simp only [ne_eq, hEnd, not_false_eq_true, if_true]
    have hs2 : s < 2147483648 := by omega
    have hScan : a.ScanAt
        { toFRelativeBitReference := FRelativeBitReference.ofIndex (s : Int),
          UnvisitedBitMask :=
            (4294967295 <<< (andInt32 (s : Int) (NumBitsPerDWORD - 1)).toNat) % 4294967296,
          CurrentBitIndex := (s : Int),
          BaseBitIndex := andInt32 (s : Int) (notInt32 (NumBitsPerDWORD - 1)) } s := by
      refine ⟨s / 32, ?_, ?_, by omega, by omega, hs, by omega, Nat.mod_lt _ (by norm_num), ?_⟩
      · rw [ofIndex_natCast s hs2]
      · exact andInt32_base s hs2
      · intro b hb
        rw [andInt32_low s hs2, Int.toNat_ofNat, Nat.testBit_and, testBit_initial_mask _ _ hb]
        have : (s % 32 ≤ b) ↔ (s ≤ 32 * (s / 32) + b) := by omega
        simp [this]
    obtain ⟨it1, c, e1, e2, e3, e4, e5, e6⟩ := findNextSetBit_spec hT hI _ s hScan
    exact ⟨it1, c, e1, ⟨c, e2, e4, e6⟩, e2, e3, e5⟩

theorem next_spec {a : TBitArray} (hT : a.WellTyped) (hI : a.Invariant) (it : FSetBitIterator)
    (hV : it.Valid a) (hb : it.toBool a = true) :
    ∃ (it1 : FSetBitIterator) (c c1 : Nat), it.next a = some it1 ∧ it1.Valid a
      ∧ it.CurrentBitIndex = (c : Int) ∧ it1.CurrentBitIndex = (c1 : Int) ∧ c < c1
      ∧ ∀ g, c < g → g < c1 → a.storageBit g = false := by
  obtain ⟨c, hc1, hc2, hc3⟩ := hV
  have hlt : (c : Int) < a.NumBits := by
    unfold FSetBitIterator.toBool at hb
    rw [hc1] at hb
    simpa using hb
  obtain ⟨hbit, hmask, hword, d, h1, h2, h3, h4, h5, h6, h7, h8⟩ := hc3 hlt
  have hd : d = c / 32 := by omega
  have hScan : a.ScanAt
      { it with UnvisitedBitMask := it.UnvisitedBitMask &&& (4294967295 - it.Mask) } (c + 1) := by
    refine ⟨d, h1, h2, by omega, by omega, by omega, h6, lt_of_le_of_lt Nat.and_le_left h7, ?_⟩
    intro b hb32
    have hp : c % 32 < 32 := Nat.mod_lt _ (by norm_num)
    have h2p : (2:Nat) ^ (c % 32) < 2 ^ 32 := Nat.pow_lt_pow_right (by omega) hp
    have e3 : 4294967295 - 2 ^ (c % 32) = 2 ^ 32 - (2 ^ (c % 32) + 1) := by omega
    have hb8 := h8 b hb32
    rw [Nat.testBit_and] at hb8
    simp only [hmask, e3]
    rw [Nat.testBit_and, Nat.testBit_and, Nat.testBit_two_pow_sub_succ h2p, Nat.testBit_two_pow,
      ← Bool.and_assoc, hb8]
    have e4 : (c + 1 ≤ 32 * d + b) ↔ (c ≤ 32 * d + b ∧ ¬ c % 32 = b) := by omega
    by_cases h9 : c ≤ 32 * d + b <;> by_cases h10 : c % 32 = b <;> simp [h9, h10, hb32, e4]
  obtain ⟨it1, c1, e1, e2, e3, e4, e5, e6⟩ := findNextSetBit_spec hT hI _ (c + 1) hScan
  refine ⟨it1, c, c1, e1, ⟨c1, e2, e4, e6⟩, hc1, e2, by omega, ?_⟩
  intro g hg1 hg2
  exact e5 g (by omega) hg2

theorem sparseLoop_spec {a : TBitArray} (hT : a.WellTyped) (hI : a.Invariant) :
    ∀ (fuel : Nat) (it : FSetBitIterator) (c : Nat), it.Valid a → it.CurrentBitIndex = (c : Int) →
      a.NumBits - (c : Int) ≤ (fuel : Int) →
      ∃ (l : List Int) (e : FSetBitIterator), a.sparseLoop fuel it = some (l, e)
        ∧ e.CurrentBitIndex = a.NumBits ∧ l.Pairwise (· < ·)
        ∧ ∀ x, x ∈ l ↔ ∃ g : Nat, x = (g : Int) ∧ c ≤ g ∧ (g : Int) < a.NumBits
            ∧ a.storageBit g = true := by
  intro fuel
  induction fuel with
  | zero =>
    intro it c hV hc hf
    obtain ⟨c', hc1, hc2, -⟩ := hV
    have hcc : c' = c := by omega
    subst hcc
    have hb : it.toBool a = false := by
      unfold FSetBitIterator.toBool; rw [hc]; simp; omega
    rw [sparseLoop, hb]
    refine ⟨[], it, by simp, by omega, List.Pairwise.nil, ?_⟩
    intro x
    constructor
    · intro h; simp at h
    · rintro ⟨g, -, h1, h2, -⟩; omega
  | succ fuel ih =>
    intro it c hV hc hf
    rw [sparseLoop]
    by_cases hb : it.toBool a = true
    · obtain ⟨it1, c0, c1, e1, e2, e3, e4, e5, e6⟩ := next_spec hT hI it hV hb
      have hcc : c0 = c := by omega
      subst hcc
      obtain ⟨l, e, f1, f2, f3, f4⟩ := ih it1 c1 e2 e4 (by omega)
      have hlt : (c0 : Int) < a.NumBits := by
        unfold FSetBitIterator.toBool at hb; rw [hc] at hb; simpa using hb
      obtain ⟨c', hc1, hc2, hc3⟩ := hV
      have hcc : c' = c0 := by omega
      subst hcc
      have hbit := (hc3 hlt).1
      rw [if_pos hb, e1]
      simp only [f1]
      refine ⟨_, e, rfl, f2, ?_, ?_⟩
      · rw [List.pairwise_cons]
        refine ⟨?_, f3⟩
        intro x hx
        obtain ⟨g, rfl, h1, -, -⟩ := (f4 x).1 hx
        unfold FSetBitIterator.GetIndex; rw [hc]; omega
      · intro x
        rw [List.mem_cons, f4 x]
        unfold FSetBitIterator.GetIndex
        constructor
        · rintro (h | ⟨g, h1, h2, h3, h4⟩)
          · exact ⟨c', by rw [h, hc], le_refl _, hlt, hbit⟩
          · exact ⟨g, h1, by omega, h3, h4⟩
        · rintro ⟨g, h1, h2, h3, h4⟩
          by_cases hg : g = c'
          · left; rw [h1, hg, hc]
          · right
            refine ⟨g, h1, ?_, h3, h4⟩
            by_contra hcon
            have := e6 g (by omega) (by omega)
            rw [this] at h4; exact Bool.noConfusion h4
    · have hb' : it.toBool a = false := by simpa using hb
      rw [hb']
      obtain ⟨c', hc1, hc2, -⟩ := hV
      have hcc : c' = c := by omega
      subst hcc
      have hge : ¬ ((c' : Int) < a.NumBits) := by
        unfold FSetBitIterator.toBool at hb'; rw [hc] at hb'; simpa using hb'
      refine ⟨[], it, by simp, by omega, List.Pairwise.nil, ?_⟩
      intro x
      constructor
      · intro h; simp at h
      · rintro ⟨g, -, h1, h2, -⟩; omega

/-! ## The dense cursor -/

theorem shl_one_mask : ∀ p : Nat, p < 32 →
    (2 ^ p <<< 1) % 4294967296 = if p = 31 then 0 else 2 ^ (p + 1) := by
  decide

theorem two_pow_ne_zero' (p : Nat) : (2 : Nat) ^ p ≠ 0 := by positivity

theorem dense_next (n : Nat) (hn : n < 2147483647) :
    FBitIterator.next { DWORDIndex := ((n / 32 : Nat) : Int), Mask := 2 ^ (n % 32), Index := (n : Int) }
      = { DWORDIndex := (((n + 1) / 32 : Nat) : Int), Mask := 2 ^ ((n + 1) % 32),
          Index := ((n + 1 : Nat) : Int) } := by
  have hp : n % 32 < 32 := Nat.mod_lt _ (by norm_num)
  have hw1 : wrapInt32 ((n : Int) + 1) = ((n + 1 : Nat) : Int) := by
    unfold wrapInt32; push_cast; omega
  unfold FBitIterator.next
  simp only [shl_one_mask _ hp, hw1]
  by_cases h31 : n % 32 = 31
  · have hw2 : wrapInt32 (((n / 32 : Nat) : Int) + 1) = (((n + 1) / 32 : Nat) : Int) := by
      unfold wrapInt32; push_cast; omega
    have e : (n + 1) % 32 = 0 := by omega
    simp only [h31, if_true, hw2, e, pow_zero]
  · have e1 : (n + 1) % 32 = n % 32 + 1 := by omega
    have e2 : (n + 1) / 32 = n / 32 := by omega
    simp only [h31, if_false, two_pow_ne_zero', e1, e2]

theorem dense_deref {a : TBitArray} (hI : a.Invariant) (n : Nat) (hn : (n : Int) < a.NumBits) :
    FBitIterator.deref a { DWORDIndex := ((n / 32 : Nat) : Int), Mask := 2 ^ (n % 32), Index := (n : Int) }
      = some (a.storageBit n) := by
  obtain ⟨h1, h2, h3⟩ := hI
  have hlen : n / 32 < a.Data.length := by omega
  unfold FBitIterator.deref storageBit
  simp only [readWord_natCast, List.getElem?_eq_getElem hlen, and_two_pow_ne_zero]

theorem denseLoop_spec {a : TBitArray} (hT : a.WellTyped) (hI : a.Invariant) (N : Nat)
    (hN : a.NumBits = (N : Int)) :
    ∀ (fuel n : Nat), n ≤ N → N - n ≤ fuel →
      a.denseLoop fuel { DWORDIndex := ((n / 32 : Nat) : Int), Mask := 2 ^ (n % 32), Index := (n : Int) }
        = some ((List.range' n (N - n)).map (fun (k : Nat) => ((k : Int), a.storageBit k)),
                { DWORDIndex := ((N / 32 : Nat) : Int), Mask := 2 ^ (N % 32), Index := (N : Int) }) := by
  have hM := maxBits_le hT hI
  have hI3 := hI.2.2
  intro fuel
  induction fuel with
  | zero =>
    intro n h1 h2
    have hn : n = N := by omega
    subst hn
    rw [denseLoop]
    simp [FBitIterator.toBool, Num, hN]
  | succ fuel ih =>
    intro n h1 h2
    rw [denseLoop]
    by_cases hlt : n < N
    · have hb : FBitIterator.toBool a
          { DWORDIndex := ((n / 32 : Nat) : Int), Mask := 2 ^ (n % 32), Index := (n : Int) } = true := by
        simp [FBitIterator.toBool, Num, hN, hlt]
      rw [if_pos hb, dense_deref hI n (by omega), dense_next n (by omega)]
      simp only [ih (n + 1) (by omega) (by omega)]
      have e : N - n = (N - (n + 1)) + 1 := by omega
      rw [e, List.range'_succ]
      simp [FBitIterator.GetIndex]
    · have hn : n = N := by omega
      subst hn
      simp [FBitIterator.toBool, Num, hN]

/-! ## Claims about `Set`, `IsSet` and `ZeroAll` -/

theorem storageBit_set {a b : TBitArray} (hT : a.WellTyped) (hI : a.Invariant) (n : Nat)
    (hn : n < 2147483616) (v f : Bool) (hb : a.Set (n : Int) v f = some b) (j : Nat) :
    b.storageBit j = if j = n then v else a.storageBit j := by
  obtain ⟨b', hb', -, -, -, hD⟩ := set_spec hT hI n hn v f
  rw [hb] at hb'; cases hb'
  have hp : n % 32 < 32 := Nat.mod_lt _ (by norm_num)
  have hq : j % 32 < 32 := Nat.mod_lt _ (by norm_num)
  rw [storageBit_eq_getD, storageBit_eq_getD, hD]
  by_cases hj : j = n
  · subst hj
    rw [if_pos rfl, if_pos rfl]
    cases v
    · rw [testBit_setBit_false _ _ _ hp]; simp
    · rw [testBit_setBit_true]; simp
  · rw [if_neg hj]
    by_cases hw : j / 32 = n / 32
    · rw [if_pos hw]
      have hne : ¬ n % 32 = j % 32 := by omega
      cases v
      · rw [testBit_setBit_false _ _ _ hp]; simp [hne, hq]
      · rw [testBit_setBit_true]; simp [hne]
    · rw [if_neg hw]

theorem set_some {a : TBitArray} (hT : a.WellTyped) (hI : a.Invariant) (i : Int) (h0 : 0 ≤ i)
    (h1 : i < 2147483616) (v f : Bool) :
    ∃ (b : TBitArray) (n : Nat), i = (n : Int) ∧ n < 2147483616 ∧ a.Set i v f = some b
      ∧ b.WellTyped ∧ b.Invariant := by
  obtain ⟨n, rfl⟩ := Int.eq_ofNat_of_zero_le h0
  have hn : n < 2147483616 := by omega
  obtain ⟨b, hb, -⟩ := set_spec hT hI n hn v f
  exact ⟨b, n, rfl, hn, hb, set_wellTyped hT hI n hn v f hb, set_invariant hT hI n hn v f hb⟩

/-- C1 (amended): in every state satisfying the structural invariant, for every index `i` with
`0 <= i < 2147483616` (the largest capacity an `int32` can hold, `2^31 - 32`) and every value
`v`, `Set(i, v)` with the default flag succeeds and `IsSet(i)` then returns `v`. -/
theorem set_isSet_read_back (a : TBitArray) (i : Int) (v : Bool) (hT : a.WellTyped)
    (hI : a.Invariant) (h0 : 0 ≤ i) (h1 : i < 2147483616) :
    ∃ b, a.Set i v false = some b ∧ b.IsSet i = some v := by
  obtain ⟨b, n, rfl, hn, hb, hbT, hbI⟩ := set_some hT hI i h0 h1 v false
  obtain ⟨b', hb', hN, -⟩ := set_spec hT hI n hn v false
  rw [hb] at hb'; cases hb'
  refine ⟨b, hb, ?_⟩
  rw [isSet_eq hbT hbI, Int.toNat_ofNat, storageBit_set hT hI n hn v false hb, if_pos rfl]
  have : (0 : Int) ≤ (n : Int) ∧ (n : Int) < b.NumBits := by
    rw [hN]; simp
  simp [this]

/-- C1 witness: bit 3 of the default-constructed array. -/
theorem set_isSet_read_back_witness :
    ∃ b, TBitArray.empty.Set 3 true false = some b ∧ b.IsSet 3 = some true :=
  set_isSet_read_back TBitArray.empty 3 true (by decide) (by decide) (by decide) (by decide)

/-- C1 counterexample: at index `2147483647` no state reads back `true` (the length is an
`int32`, so it is never above the index), and `Set` on the default-constructed array has no
word to write to.  Already at index `2147483616` the capacity needed is `2^31` and `Set` does
not succeed. -/
theorem set_isSet_read_back_fails :
    TBitArray.empty.WellTyped ∧ TBitArray.empty.Invariant
      ∧ (∀ b : TBitArray, b.WellTyped → b.IsSet 2147483647 = some false)
      ∧ (¬ ∃ b, TBitArray.empty.Set 2147483647 true false = some b
            ∧ b.IsSet 2147483647 = some true)
      ∧ TBitArray.empty.Set 2147483616 true false = none := by
  refine ⟨by decide, by decide, ?_, ?_, by decide⟩
  · intro b hb
    have h := hb.1.2
    unfold IsSet
    rw [if_pos (Or.inr h)]
  · rintro ⟨b, hb, -⟩
    have : TBitArray.empty.Set 2147483647 true false = none := by decide
    rw [this] at hb
    exact Option.noConfusion hb

/-- C7 (amended): for every state satisfying the structural invariant, every index `i` with
`0 <= i < 2147483616`, every value and either flag, `Set(i, v, flag)` succeeds; every word
that existed before keeps every bit other than bit `i & 31` of word `i >> 5`; every newly added
word is zero except possibly that bit; the target bit equals `v`; and `IsSet(j)` is unchanged
for every `j != i` below the old length. -/
theorem set_touches_one_bit (a : TBitArray) (i : Int) (v f : Bool) (hT : a.WellTyped)
    (hI : a.Invariant) (h0 : 0 ≤ i) (h1 : i < 2147483616) :
    ∃ b, a.Set i v f = some b
      ∧ (∀ k bit, k < a.Data.length → bit < 32 →
          ¬ (k = (i >>> (5 : Nat)).toNat ∧ bit = (andInt32 i 31).toNat) →
          (b.Data.getD k 0).testBit bit = (a.Data.getD k 0).testBit bit)
      ∧ (∀ k bit, a.Data.length ≤ k →
          ¬ (k = (i >>> (5 : Nat)).toNat ∧ bit = (andInt32 i 31).toNat) →
          (b.Data.getD k 0).testBit bit = false)
      ∧ (i >>> (5 : Nat)).toNat < b.Data.length
      ∧ (b.Data.getD (i >>> (5 : Nat)).toNat 0).testBit (andInt32 i 31).toNat = v
      ∧ (∀ j : Int, j ≠ i → j < a.Num → b.IsSet j = a.IsSet j) := by
  obtain ⟨b, n, rfl, hn, hb, hbT, hbI⟩ := set_some hT hI i h0 h1 v f
  obtain ⟨b', hb', hN, hMx, hL, hD⟩ := set_spec hT hI n hn v f
  rw [hb] at hb'; cases hb'
  have hp : n % 32 < 32 := Nat.mod_lt _ (by norm_num)
  have e1 : ((n : Int) >>> (5 : Nat)).toNat = n / 32 := by rw [shiftRight_five]; rfl
  have e2 : (andInt32 (n : Int) 31).toNat = n % 32 := by
    have := andInt32_low n (by omega)
    unfold NumBitsPerDWORD at this
    norm_num at this
    rw [this]; rfl
  rw [e1, e2]
  have hword : ∀ k bit, bit < 32 → ¬ (k = n / 32 ∧ bit = n % 32) →
      (b.Data.getD k 0).testBit bit = (a.Data.getD k 0).testBit bit := by
    intro k bit hbit hne
    rw [hD k]
    by_cases hk : k = n / 32
    · rw [if_pos hk]
      have hne2 : ¬ n % 32 = bit := fun h => hne ⟨hk, h.symm⟩
      cases v
      · rw [testBit_setBit_false _ _ _ hp]; simp [hne2, hbit]
      · rw [testBit_setBit_true]; simp [hne2]
    · rw [if_neg hk]
  refine ⟨b, hb, ?_, ?_, ?_, ?_, ?_⟩
  · intro k bit _ hbit hne
    exact hword k bit hbit hne
  · intro k bit hk hne
    have hzero : a.Data.getD k 0 = 0 := by
      rw [List.getD_eq_getElem?_getD, List.getElem?_eq_none (by omega)]; rfl
    by_cases hbit : bit < 32
    · rw [hword k bit hbit hne, hzero, Nat.zero_testBit]
    · apply Nat.testBit_lt_two_pow
      have hlt : b.Data.getD k 0 < 2 ^ 32 := by
        rw [List.getD_eq_getElem?_getD]
        by_cases hk2 : k < b.Data.length
        · rw [List.getElem?_eq_getElem hk2]; exact hbT.2.2 _ (List.getElem_mem _)
        · rw [List.getElem?_eq_none (by omega)]; norm_num
      exact lt_of_lt_of_le hlt (Nat.pow_le_pow_right (by norm_num) (by omega))
  · rw [hL]; omega
  · have := storageBit_set hT hI n hn v f hb n
    rw [if_pos rfl, storageBit_eq_getD] at this
    exact this
  · intro j hj1 hj2
    rw [isSet_eq hbT hbI, isSet_eq hT hI]
    by_cases hj0 : 0 ≤ j
    · obtain ⟨m, rfl⟩ := Int.eq_ofNat_of_zero_le hj0
      have hmn : m ≠ n := fun h => hj1 (by rw [h])
      rw [Int.toNat_ofNat, storageBit_set hT hI n hn v f hb m, if_neg hmn]
      unfold Num at hj2
      have h3 : (m : Int) < b.NumBits := by
        rw [hN]; split
        · exact hj2
        · exact lt_of_lt_of_le hj2 (le_max_left _ _)
      simp [hj2, h3]
    · have h3 : ¬ (0 ≤ j ∧ j < a.NumBits) := fun h => hj0 h.1
      have h4 : ¬ (0 ≤ j ∧ j < b.NumBits) := fun h => hj0 h.1
      simp [h3, h4]

/-- C7 witness: bit 3 is set, then bit 200 is set and forces growth; bit 3 is still set. -/
theorem set_touches_one_bit_witness :
    (∃ b, (TBitArray.mk [8] 4 32).Set 200 true false = some b
      ∧ (∀ k bit, k < [8].length → bit < 32 →
          ¬ (k = ((200 : Int) >>> (5 : Nat)).toNat ∧ bit = (andInt32 200 31).toNat) →
          (b.Data.getD k 0).testBit bit = (([8] : List Nat).getD k 0).testBit bit)
      ∧ (∀ k bit, [8].length ≤ k →
          ¬ (k = ((200 : Int) >>> (5 : Nat)).toNat ∧ bit = (andInt32 200 31).toNat) →
          (b.Data.getD k 0).testBit bit = false)
      ∧ ((200 : Int) >>> (5 : Nat)).toNat < b.Data.length
      ∧ (b.Data.getD ((200 : Int) >>> (5 : Nat)).toNat 0).testBit (andInt32 200 31).toNat = true
      ∧ (∀ j : Int, j ≠ 200 → j < (TBitArray.mk [8] 4 32).Num →
          b.IsSet j = (TBitArray.mk [8] 4 32).IsSet j))
      ∧ TBitArray.empty.Set 3 true false = some (TBitArray.mk [8] 4 32)
      ∧ ((TBitArray.mk [8] 4 32).Set 200 true false).bind (fun b => b.IsSet 3) = some true :=
  ⟨set_touches_one_bit (TBitArray.mk [8] 4 32) 200 true false (by decide) (by decide) (by decide)
    (by decide), by decide, by decide⟩

/-- C7 counterexample: on the default-constructed array `Set(2147483647, true)` has no word
`2147483647 >> 5` to hold the target bit. -/
theorem set_touches_one_bit_fails :
    TBitArray.empty.WellTyped ∧ TBitArray.empty.Invariant
      ∧ ¬ ∃ b, TBitArray.empty.Set 2147483647 true true = some b
            ∧ (b.Data.getD ((2147483647 : Int) >>> (5 : Nat)).toNat 0).testBit
                (andInt32 2147483647 31).toNat = true := by
  refine ⟨by decide, by decide, ?_⟩
  rintro ⟨b, hb, -⟩
  have : TBitArray.empty.Set 2147483647 true true = none := by decide
  rw [this] at hb
  exact Option.noConfusion hb

/-- C9 (amended): for every state satisfying the structural invariant and every index `i`
with `0 <= i < 2147483616`, `Set(i, v, flag)` succeeds; `Max()` is unchanged when
`i < old Max()`, and otherwise equals `32 * ceil((i + 1) / 32)`, the least multiple of 32 that
is `>= i + 1`; `Max()` never decreases. -/
theorem set_minimal_growth (a : TBitArray) (i : Int) (v f : Bool) (hT : a.WellTyped)
    (hI : a.Invariant) (h0 : 0 ≤ i) (h1 : i < 2147483616) :
    ∃ b, a.Set i v f = some b
      ∧ (i < a.Max → b.Max = a.Max)
      ∧ (a.Max ≤ i → b.Max = 32 * ((i + 1 + 31) / 32) ∧ 32 ∣ b.Max ∧ i + 1 ≤ b.Max
            ∧ ∀ m : Int, 32 ∣ m → i + 1 ≤ m → b.Max ≤ m)
      ∧ a.Max ≤ b.Max := by
  obtain ⟨b, n, rfl, hn, hb, hbT, hbI⟩ := set_some hT hI i h0 h1 v f
  obtain ⟨b', hb', hN, hMx, hL, hD⟩ := set_spec hT hI n hn v f
  rw [hb] at hb'; cases hb'
  have hI1 := hI.1
  unfold Max
  refine ⟨b, hb, ?_, ?_, ?_⟩
  · intro hlt
    rw [hMx]; apply max_eq_left; push_cast; omega
  · intro hge
    have e : b.MaxBits = 32 * (((n : Int) + 1 + 31) / 32) := by
      rw [hMx, max_eq_right (by push_cast; omega)]; push_cast; omega
    refine ⟨e, ⟨_, e⟩, by omega, ?_⟩
    rintro m ⟨k, rfl⟩ hm
    omega
  · rw [hMx]; exact le_max_left _ _

set_option maxRecDepth 200000

/-- C9 witness: `Set(999, true)` on the default-constructed array gives `Max() = 1024`, and
the bits below 999 read false. -/
theorem set_minimal_growth_witness :
    (∃ b, TBitArray.empty.Set 999 true false = some b
      ∧ ((999 : Int) < TBitArray.empty.Max → b.Max = TBitArray.empty.Max)
      ∧ (TBitArray.empty.Max ≤ 999 → b.Max = 32 * (((999 : Int) + 1 + 31) / 32) ∧ 32 ∣ b.Max
            ∧ (999 : Int) + 1 ≤ b.Max ∧ ∀ m : Int, 32 ∣ m → (999 : Int) + 1 ≤ m → b.Max ≤ m)
      ∧ TBitArray.empty.Max ≤ b.Max)
    ∧ (TBitArray.empty.Set 999 true false).map (fun b => b.Max) = some 1024
    ∧ ∀ j : Fin 999,
        (TBitArray.empty.Set 999 true false).bind (fun b => b.IsSet (j.val : Int)) = some false :=
  ⟨set_minimal_growth TBitArray.empty 999 true false (by decide) (by decide) (by decide)
    (by decide), by decide, by decide⟩

set_option maxRecDepth 512

/-- C9 counterexample: `i = 2147483646` has `i + 1` representable in `int32`, yet the least
multiple of 32 that is `>= i + 1` is `2^31`, which `Max()` cannot hold; `Set` does not
succeed. -/
theorem set_minimal_growth_fails :
    TBitArray.empty.WellTyped ∧ TBitArray.empty.Invariant
      ∧ IsInt32 (2147483646 + 1)
      ∧ (∀ b : TBitArray, b.WellTyped → b.Max ≠ 32 * (((2147483646 : Int) + 1 + 31) / 32))
      ∧ ¬ ∃ b, TBitArray.empty.Set 2147483646 true false = some b
            ∧ b.Max = 32 * (((2147483646 : Int) + 1 + 31) / 32) := by
  refine ⟨by decide, by decide, by decide, ?_, ?_⟩
  · intro b hb h
    have h2 := hb.2.1.2
    unfold Max at h
    omega
  · rintro ⟨b, hb, -⟩
    have : TBitArray.empty.Set 2147483646 true false = none := by decide
    rw [this] at hb
    exact Option.noConfusion hb

theorem zeroAll_spec {a : TBitArray} (hT : a.WellTyped) (hI : a.Invariant) :
    a.ZeroAll = some { Data := List.replicate a.Data.length 0, NumBits := 0,
                       MaxBits := a.MaxBits } := by
  have hM := maxBits_le hT hI
  obtain ⟨h1, h2, h3⟩ := hI
  have hc : Int.tdiv (wrapInt32 (wrapInt32 (a.MaxBits + NumBitsPerDWORD) - 1)) NumBitsPerDWORD
      = (a.Data.length : Int) := by
    rw [tdiv_wrap_add _ (by omega) hM]; omega
  unfold ZeroAll
  simp only [hc, Int.toNat_ofNat]
  rw [if_neg (by omega), List.drop_length, List.append_nil]

/-- C8: for every state satisfying the structural invariant, `ZeroAll()` succeeds; afterwards
`Num() = 0`, `Max()` and the number of words are unchanged, every allocated word is 0, and
`IsSet(i)` is false for every integer `i`. -/
theorem zeroAll_postcondition (a : TBitArray) (hT : a.WellTyped) (hI : a.Invariant) :
    ∃ b, a.ZeroAll = some b ∧ b.Num = 0 ∧ b.Max = a.Max ∧ b.Data.length = a.Data.length
      ∧ (∀ k, k < b.Data.length → b.Data[k]? = some 0)
      ∧ ∀ i : Int, b.IsSet i = some false := by
  refine ⟨_, zeroAll_spec hT hI, rfl, rfl, by simp, ?_, ?_⟩
  · intro k hk
    simp only [List.length_replicate] at hk
    simp [List.getElem?_replicate, hk]
  · intro i
    unfold IsSet
    rw [if_pos]
    simp only [ge_iff_le]
    omega

/-- C8 witness: an array of three words with bits stored below and above its length. -/
theorem zeroAll_postcondition_witness :
    ∃ b, (TBitArray.mk [10, 4294967295, 7] 40 96).ZeroAll = some b ∧ b.Num = 0
      ∧ b.Max = (TBitArray.mk [10, 4294967295, 7] 40 96).Max
      ∧ b.Data.length = (TBitArray.mk [10, 4294967295, 7] 40 96).Data.length
      ∧ (∀ k, k < b.Data.length → b.Data[k]? = some 0)
      ∧ ∀ i : Int, b.IsSet i = some false :=
  zeroAll_postcondition (TBitArray.mk [10, 4294967295, 7] 40 96) (by decide) (by decide)

/-- C10 (amended): the structural invariant (together with the typing of the fields) holds
for the default-constructed array, is preserved by `Set(i, v, flag)` for every index with
`0 <= i < 2147483616`, every value and either flag, and is preserved by `ZeroAll()`; both
operations succeed on such inputs. -/
theorem invariant_preserved :
    (TBitArray.empty.WellTyped ∧ TBitArray.empty.Invariant)
      ∧ (∀ (a : TBitArray) (i : Int) (v f : Bool), a.WellTyped → a.Invariant → 0 ≤ i →
          i < 2147483616 → ∃ b, a.Set i v f = some b ∧ b.WellTyped ∧ b.Invariant)
      ∧ (∀ a : TBitArray, a.WellTyped → a.Invariant →
          ∃ b, a.ZeroAll = some b ∧ b.WellTyped ∧ b.Invariant) := by
  refine ⟨⟨by decide, by decide⟩, ?_, ?_⟩
  · intro a i v f hT hI h0 h1
    obtain ⟨b, n, -, -, hb, hbT, hbI⟩ := set_some hT hI i h0 h1 v f
    exact ⟨b, hb, hbT, hbI⟩
  · intro a hT hI
    refine ⟨_, zeroAll_spec hT hI, ⟨⟨by norm_num, by norm_num⟩, hT.2.1, ?_⟩, ⟨?_, le_refl _, ?_⟩⟩
    · intro w hw
      rw [List.eq_of_mem_replicate hw]; norm_num
    · simp only [List.length_replicate]; exact hI.1
    · exact le_trans hI.2.1 hI.2.2

/-- C10 witness: `Set(200, true)` and `ZeroAll()` on a one-word array. -/
theorem invariant_preserved_witness :
    (∃ b, (TBitArray.mk [8] 4 32).Set 200 true false = some b ∧ b.WellTyped ∧ b.Invariant)
      ∧ (∃ b, (TBitArray.mk [8] 4 32).ZeroAll = some b ∧ b.WellTyped ∧ b.Invariant) :=
  ⟨invariant_preserved.2.1 (TBitArray.mk [8] 4 32) 200 true false (by decide) (by decide)
      (by decide) (by decide),
    invariant_preserved.2.2 (TBitArray.mk [8] 4 32) (by decide) (by decide)⟩

/-- C10 counterexample: the default-constructed array satisfies the invariant; for
`Set(2147483647, false)` the new length `Index + 1` wraps to a negative `int32`, and the call
does not produce a state at all, in particular none that satisfies the invariant. -/
theorem invariant_preserved_fails :
    TBitArray.empty.WellTyped ∧ TBitArray.empty.Invariant ∧ (0 : Int) ≤ 2147483647
      ∧ wrapInt32 (2147483647 + 1) = -2147483648
      ∧ ¬ ∃ b, TBitArray.empty.Set 2147483647 false false = some b ∧ b.Invariant := by
  refine ⟨by decide, by decide, by decide, by decide, ?_⟩
  rintro ⟨b, hb, -⟩
  have : TBitArray.empty.Set 2147483647 false false = none := by decide
  rw [this] at hb
  exact Option.noConfusion hb

theorem applyCalls_spec : ∀ (calls : List SetCall) (a : TBitArray), a.WellTyped → a.Invariant →
    (∀ c ∈ calls, 0 ≤ c.Index ∧ c.Index < 2147483616) →
    ∃ b, applyCalls calls a = some b ∧ b.WellTyped ∧ b.Invariant
      ∧ a.NumBits ≤ b.NumBits
      ∧ (∀ c ∈ calls, c.bIsSettingAllZero = false → c.Index + 1 ≤ b.NumBits)
      ∧ (b.NumBits = a.NumBits
          ∨ ∃ c ∈ calls, c.bIsSettingAllZero = false ∧ b.NumBits = c.Index + 1) := by
  intro calls
  induction calls with
  | nil =>
    intro a hT hI _
    exact ⟨a, rfl, hT, hI, le_refl _, by simp, Or.inl rfl⟩
  | cons c cs ih =>
    intro a hT hI hc
    have hc0 := hc c (List.mem_cons_self _ _)
    obtain ⟨b1, n, hn1, hn2, hb1, hT1, hI1⟩ :=
      set_some hT hI c.Index hc0.1 hc0.2 c.Value c.bIsSettingAllZero
    obtain ⟨b', hb', hN, -⟩ := set_spec hT hI n hn2 c.Value c.bIsSettingAllZero
    rw [← hn1, hb1] at hb'; cases hb'
    obtain ⟨b, hb, hbT, hbI, h1, h2, h3⟩ :=
      ih b1 hT1 hI1 (fun x hx => hc x (List.mem_cons_of_mem _ hx))
    rw [applyCalls, hb1]
    refine ⟨b, hb, hbT, hbI, ?_, ?_, ?_⟩
    · rw [hN] at h1
      split at h1
      · exact h1
      · exact le_trans (le_max_left _ _) h1
    · intro x hx hf
      rcases List.mem_cons.1 hx with rfl | hx
      · rw [hN, hf] at h1
        simp only [Bool.false_eq_true, if_false] at h1
        rw [hn1]
        exact le_trans (le_max_right _ _) h1
      · exact h2 x hx hf
    · rcases h3 with h3 | ⟨x, hx, hf, he⟩
      · rw [h3, hN]
        by_cases hf : c.bIsSettingAllZero = true
        · left; rw [if_pos hf]
        · rw [if_neg hf]
          by_cases hle : a.NumBits ≤ (n : Int) + 1
          · right
            exact ⟨c, List.mem_cons_self _ _, by simpa using hf, by rw [max_eq_right hle, hn1]⟩
          · left; exact max_eq_left (by omega)
      · right
        exact ⟨x, List.mem_cons_of_mem _ hx, hf, he⟩

/-- C6 (amended): for every finite sequence of `Set` calls whose indices satisfy
`0 <= i < 2147483616` (any values, any mix of flags) applied to a default-constructed array,
every call succeeds and `Num()` afterwards is 0 if no call was made with
`suppressLengthGrowth = false`, and otherwise is `1 +` the maximum index among those calls.
Per step, on a state satisfying the structural invariant, `Set(i, v, false)` sets the length
to `max(length, i + 1)` and `Set(i, v, true)` leaves it unchanged. -/
theorem num_tracks_unsuppressed_calls :
    (∀ calls : List SetCall, (∀ c ∈ calls, 0 ≤ c.Index ∧ c.Index < 2147483616) →
      ∃ b, applyCalls calls TBitArray.empty = some b
        ∧ ((∀ c ∈ calls, c.bIsSettingAllZero = true) → b.Num = 0)
        ∧ ((∃ c ∈ calls, c.bIsSettingAllZero = false) →
            (∃ c ∈ calls, c.bIsSettingAllZero = false ∧ b.Num = 1 + c.Index)
              ∧ ∀ c ∈ calls, c.bIsSettingAllZero = false → 1 + c.Index ≤ b.Num))
    ∧ (∀ (a : TBitArray) (i : Int) (v : Bool), a.WellTyped → a.Invariant → 0 ≤ i →
        i < 2147483616 →
        (∃ b, a.Set i v false = some b ∧ b.Num = max a.Num (i + 1))
          ∧ ∃ b, a.Set i v true = some b ∧ b.Num = a.Num) := by
  constructor
  · intro calls hc
    obtain ⟨b, hb, -, -, h1, h2, h3⟩ :=
      applyCalls_spec calls TBitArray.empty (by decide) (by decide) hc
    have he : TBitArray.empty.NumBits = 0 := rfl
    rw [he] at h1 h3
    unfold Num
    refine ⟨b, hb, ?_, ?_⟩
    · intro hall
      rcases h3 with h3 | ⟨x, hx, hf, -⟩
      · exact h3
      · rw [hall x hx] at hf; exact Bool.noConfusion hf
    · rintro ⟨x, hx, hf⟩
      constructor
      · rcases h3 with h3 | ⟨y, hy, hf2, he2⟩
        · have := h2 x hx hf
          have := (hc x hx).1
          omega
        · exact ⟨y, hy, hf2, by omega⟩
      · intro y hy hf2
        have := h2 y hy hf2
        omega
  · intro a i v hT hI h0 h1
    obtain ⟨n, rfl⟩ := Int.eq_ofNat_of_zero_le h0
    have hn : n < 2147483616 := by omega
    obtain ⟨b1, hb1, hN1, -⟩ := set_spec hT hI n hn v false
    obtain ⟨b2, hb2, hN2, -⟩ := set_spec hT hI n hn v true
    exact ⟨⟨b1, hb1, by simpa [Num] using hN1⟩, ⟨b2, hb2, by simpa [Num] using hN2⟩⟩

/-- C6 witness: four calls on the default-constructed array, the largest index set with the
flag suppressed; the length ends at `1 + 40`. -/
theorem num_tracks_unsuppressed_calls_witness :
    (applyCalls [⟨3, true, false⟩, ⟨70, true, true⟩, ⟨40, false, false⟩, ⟨5, true, false⟩]
          TBitArray.empty).map (fun b => b.Num) = some 41
      ∧ ∃ b, applyCalls [⟨3, true, false⟩, ⟨70, true, true⟩, ⟨40, false, false⟩, ⟨5, true, false⟩]
          TBitArray.empty = some b
        ∧ ((∀ c ∈ [(⟨3, true, false⟩ : SetCall), ⟨70, true, true⟩, ⟨40, false, false⟩,
              ⟨5, true, false⟩], c.bIsSettingAllZero = true) → b.Num = 0)
        ∧ ((∃ c ∈ [(⟨3, true, false⟩ : SetCall), ⟨70, true, true⟩, ⟨40, false, false⟩,
              ⟨5, true, false⟩], c.bIsSettingAllZero = false) →
            (∃ c ∈ [(⟨3, true, false⟩ : SetCall), ⟨70, true, true⟩, ⟨40, false, false⟩,
              ⟨5, true, false⟩], c.bIsSettingAllZero = false ∧ b.Num = 1 + c.Index)
              ∧ ∀ c ∈ [(⟨3, true, false⟩ : SetCall), ⟨70, true, true⟩, ⟨40, false, false⟩,
                  ⟨5, true, false⟩], c.bIsSettingAllZero = false → 1 + c.Index ≤ b.Num) :=
  ⟨by decide,
    num_tracks_unsuppressed_calls.1
      [⟨3, true, false⟩, ⟨70, true, true⟩, ⟨40, false, false⟩, ⟨5, true, false⟩] (by decide)⟩

/-- C6 counterexample: a single call `Set(2147483647, true)` on the default-constructed array
does not succeed, so no length `1 + 2147483647` (which is not an `int32` either) results. -/
theorem num_tracks_unsuppressed_calls_fails :
    (0 : Int) ≤ (SetCall.mk 2147483647 true false).Index
      ∧ (∀ b : TBitArray, b.WellTyped → b.Num ≠ 1 + 2147483647)
      ∧ ¬ ∃ b, applyCalls [SetCall.mk 2147483647 true false] TBitArray.empty = some b
            ∧ b.Num = 1 + 2147483647 := by
  refine ⟨by decide, ?_, ?_⟩
  · intro b hb h
    have h2 := hb.1.2
    unfold Num at h
    omega
  · rintro ⟨b, hb, -⟩
    have : applyCalls [SetCall.mk 2147483647 true false] TBitArray.empty = none := by decide
    rw [this] at hb
    exact Option.noConfusion hb

/-! ## Claims about the cursors -/

theorem sparse_from {a : TBitArray} (hT : a.WellTyped) (hI : a.Invariant) (s : Nat)
    (hs : (s : Int) ≤ a.NumBits) :
    ∃ (it0 : FSetBitIterator) (l : List Int) (e : FSetBitIterator),
      a.SetBitIterator (s : Int) = some it0 ∧ a.sparseLoop a.NumBits.toNat it0 = some (l, e)
        ∧ l.Pairwise (· < ·)
        ∧ (∀ i : Int, i ∈ l ↔ ((s : Int) ≤ i ∧ i < a.NumBits ∧ a.IsSet i = some true))
        ∧ e.CurrentBitIndex = a.NumBits := by
  obtain ⟨it0, c, e1, e2, e3, e4, e5⟩ := begin_spec hT hI s hs
  have hc : (c : Int) ≤ a.NumBits := by
    obtain ⟨c', h1, h2, -⟩ := e2
    omega
  obtain ⟨l, e, f1, f2, f3, f4⟩ := sparseLoop_spec hT hI a.NumBits.toNat it0 c e2 e3 (by omega)
  refine ⟨it0, l, e, e1, f1, f3, ?_, f2⟩
  intro i
  rw [f4 i, isSet_eq hT hI]
  constructor
  · rintro ⟨g, rfl, h1, h2, h3⟩
    refine ⟨by omega, h2, ?_⟩
    have : (0 : Int) ≤ (g : Int) ∧ (g : Int) < a.NumBits := ⟨by omega, h2⟩
    simp [this, h3]
  · rintro ⟨h1, h2, h3⟩
    obtain ⟨g, rfl⟩ := Int.eq_ofNat_of_zero_le (by omega : 0 ≤ i)
    have hin : (0 : Int) ≤ (g : Int) ∧ (g : Int) < a.NumBits := ⟨by omega, h2⟩
    have hbit : a.storageBit g = true := by simpa [hin] using h3
    refine ⟨g, rfl, ?_, h2, hbit⟩
    by_contra hcon
    have := e5 g (by omega) (by omega)
    rw [this] at hbit
    exact Bool.noConfusion hbit

/-- C4: for every state satisfying the structural invariant and every start index `s` with
`0 <= s <= Num()`, the cursor `SetBitIterator(s)` advanced until its boolean conversion is
false yields exactly the ascending list of the indices `i` with `s <= i < Num()` and
`IsSet(i) = true`; set bits below `s` are not reported. -/
theorem sparse_traversal_from_start (a : TBitArray) (s : Int) (hT : a.WellTyped)
    (hI : a.Invariant) (h0 : 0 ≤ s) (h1 : s ≤ a.Num) :
    ∃ (l : List Int) (e : FSetBitIterator), a.sparseTraversal s = some (l, e)
      ∧ l.Pairwise (· < ·)
      ∧ (∀ i : Int, i ∈ l ↔ (s ≤ i ∧ i < a.Num ∧ a.IsSet i = some true))
      ∧ e.toBool a = false := by
  obtain ⟨n, rfl⟩ := Int.eq_ofNat_of_zero_le h0
  obtain ⟨it0, l, e, e1, e2, e3, e4, e5⟩ := sparse_from hT hI n h1
  refine ⟨l, e, ?_, e3, e4, ?_⟩
  · unfold sparseTraversal; rw [e1]; exact e2
  · unfold FSetBitIterator.toBool; rw [e5]; simp

/-- C4 witness: length 5, bits 1 and 3 set, start 2 yields `[3]`. -/
theorem sparse_traversal_from_start_witness :
    (∃ (l : List Int) (e : FSetBitIterator),
        (TBitArray.mk [10] 5 32).sparseTraversal 2 = some (l, e)
      ∧ l.Pairwise (· < ·)
      ∧ (∀ i : Int, i ∈ l ↔ (2 ≤ i ∧ i < (TBitArray.mk [10] 5 32).Num
            ∧ (TBitArray.mk [10] 5 32).IsSet i = some true))
      ∧ e.toBool (TBitArray.mk [10] 5 32) = false)
    ∧ ((TBitArray.mk [10] 5 32).sparseTraversal 2).map (fun r => r.1) = some [3] :=
  ⟨sparse_traversal_from_start (TBitArray.mk [10] 5 32) 2 (by decide) (by decide) (by decide)
    (by decide), by decide⟩

/-- C2: for every state satisfying the structural invariant, whatever the words hold, the
traversal from `SetBitsItBegin()` advancing with `++` while the cursor's boolean conversion is
true visits exactly the strictly ascending list of all indices `i` in `[0, Num())` with
`IsSet(i) = true`, and stops at a cursor whose index is `Num()`, equal to `SetBitsItEnd()`. -/
theorem sparse_traversal_exact (a : TBitArray) (hT : a.WellTyped) (hI : a.Invariant) :
    ∃ (it0 : FSetBitIterator) (l : List Int) (e : FSetBitIterator),
      a.SetBitsItBegin = some it0 ∧ a.sparseLoop a.Num.toNat it0 = some (l, e)
        ∧ l.Pairwise (· < ·)
        ∧ (∀ i : Int, i ∈ l ↔ (0 ≤ i ∧ i < a.Num ∧ a.IsSet i = some true))
        ∧ e.toBool a = false ∧ e.GetIndex = a.Num ∧ e.eq a.SetBitsItEnd = true := by
  obtain ⟨it0, l, e, e1, e2, e3, e4, e5⟩ := sparse_from hT hI 0 hI.2.1
  refine ⟨it0, l, e, e1, e2, e3, e4, ?_, e5, ?_⟩
  · unfold FSetBitIterator.toBool; rw [e5]; simp
  · unfold FSetBitIterator.eq SetBitsItEnd FSetBitIterator.End
    rw [e5]; simp

/-- C2 witness: three words, length 70, bits 31 and 32 set on both sides of a word boundary,
and a stored bit at index 71 beyond the length; the traversal visits `[31, 32]`. -/
theorem sparse_traversal_exact_witness :
    (∃ (it0 : FSetBitIterator) (l : List Int) (e : FSetBitIterator),
      (TBitArray.mk [2147483648, 1, 128] 70 96).SetBitsItBegin = some it0
        ∧ (TBitArray.mk [2147483648, 1, 128] 70 96).sparseLoop
            (TBitArray.mk [2147483648, 1, 128] 70 96).Num.toNat it0 = some (l, e)
        ∧ l.Pairwise (· < ·)
        ∧ (∀ i : Int, i ∈ l ↔ (0 ≤ i ∧ i < (TBitArray.mk [2147483648, 1, 128] 70 96).Num
              ∧ (TBitArray.mk [2147483648, 1, 128] 70 96).IsSet i = some true))
        ∧ e.toBool (TBitArray.mk [2147483648, 1, 128] 70 96) = false
        ∧ e.GetIndex = (TBitArray.mk [2147483648, 1, 128] 70 96).Num
        ∧ e.eq (TBitArray.mk [2147483648, 1, 128] 70 96).SetBitsItEnd = true)
    ∧ ((TBitArray.mk [2147483648, 1, 128] 70 96).sparseTraversal 0).map (fun r => r.1)
        = some [31, 32] :=
  ⟨sparse_traversal_exact (TBitArray.mk [2147483648, 1, 128] 70 96) (by decide) (by decide),
    by decide⟩

theorem sparseAfter_valid {a : TBitArray} (hT : a.WellTyped) (hI : a.Invariant) (s : Nat)
    (hs : (s : Int) ≤ a.NumBits) :
    ∀ (k : Nat) (it : FSetBitIterator), a.sparseAfter (s : Int) k = some it → it.Valid a := by
  intro k
  induction k with
  | zero =>
    intro it h
    obtain ⟨it0, c, e1, e2, -⟩ := begin_spec hT hI s hs
    rw [sparseAfter, SetBitIterator, e1] at h
    cases h
    exact e2
  | succ k ih =>
    intro it h
    rw [sparseAfter] at h
    cases hk : a.sparseAfter (s : Int) k with
    | none => rw [hk] at h; exact Option.noConfusion h
    | some it0 =>
      rw [hk] at h
      simp only [] at h
      by_cases hb : it0.toBool a = true
      · rw [if_pos hb] at h
        obtain ⟨it1, c, c1, e1, e2, -⟩ := next_spec hT hI it0 (ih it0 hk) hb
        rw [e1] at h
        cases h
        exact e2
      · rw [if_neg hb] at h
        exact Option.noConfusion h

/-- C3: for every state satisfying the structural invariant and every start index `s` in
`[0, Num()]`, construction succeeds, and every cursor reached by construction followed by
advances from non-end states has an index in `[0, Num()]`, the storage bit at that index is 1
whenever the index is below `Num()`, and the next advance succeeds.  Whenever no storage bit
is set between the scan position and `Num()` (so the lowest unvisited stored bit, if any, lies
at an index `>= Num()`), the index becomes exactly `Num()`: after construction when the scan
starts at `s`, after an advance when it starts just above the current index. -/
theorem sparse_cursor_guard (a : TBitArray) (s : Int) (hT : a.WellTyped) (hI : a.Invariant)
    (h0 : 0 ≤ s) (h1 : s ≤ a.Num) :
    (∃ it0, a.SetBitIterator s = some it0
        ∧ ((∀ g : Nat, s ≤ (g : Int) → (g : Int) < a.Num → a.storageBit g = false) →
            it0.GetIndex = a.Num))
      ∧ ∀ (k : Nat) (it : FSetBitIterator), a.sparseAfter s k = some it →
          0 ≤ it.GetIndex ∧ it.GetIndex ≤ a.Num
            ∧ (it.GetIndex < a.Num → a.storageBit it.GetIndex.toNat = true)
            ∧ (it.toBool a = true →
                ∃ it1, it.next a = some it1
                  ∧ ((∀ g : Nat, it.GetIndex < (g : Int) → (g : Int) < a.Num →
                        a.storageBit g = false) → it1.GetIndex = a.Num)) := by
  obtain ⟨n, rfl⟩ := Int.eq_ofNat_of_zero_le h0
  unfold Num at *
  unfold FSetBitIterator.GetIndex
  constructor
  · obtain ⟨it0, c, e1, e2, e3, e4, e5⟩ := begin_spec hT hI n h1
    refine ⟨it0, e1, ?_⟩
    intro hnone
    obtain ⟨c', f1, f2, f3⟩ := e2
    have hcc : c' = c := by omega
    subst hcc
    by_contra hne
    have hlt : (c' : Int) < a.NumBits := by omega
    have hbit := (f3 hlt).1
    rw [hnone c' (by omega) hlt] at hbit
    exact Bool.noConfusion hbit
  · intro k it hk
    have hV := sparseAfter_valid hT hI n h1 k it hk
    obtain ⟨c, f1, f2, f3⟩ := hV
    refine ⟨by omega, by omega, ?_, ?_⟩
    · intro hlt
      rw [f1] at hlt ⊢
      rw [Int.toNat_ofNat]
      exact (f3 hlt).1
    · intro hb
      obtain ⟨it1, c0, c1, e1, e2, e3, e4, e5, e6⟩ := next_spec hT hI it ⟨c, f1, f2, f3⟩ hb
      refine ⟨it1, e1, ?_⟩
      intro hnone
      obtain ⟨c', g1, g2, g3⟩ := e2
      have hcc : c' = c1 := by omega
      subst hcc
      by_contra hne
      have hlt : (c' : Int) < a.NumBits := by omega
      have hbit := (g3 hlt).1
      rw [hnone c' (by omega) hlt] at hbit
      exact Bool.noConfusion hbit

/-- C3 witness: one word in use (length 5, bits 1 and 3 set) with stored bits beyond the
length, at index 31 of the final partial word and in two later words; the cursor built at
start 4, just above the last set bit, has index exactly 5. -/
theorem sparse_cursor_guard_witness :
    ((∃ it0, (TBitArray.mk [2147483658, 1, 7] 5 96).SetBitIterator 4 = some it0
        ∧ ((∀ g : Nat, (4 : Int) ≤ (g : Int) → (g : Int) < (TBitArray.mk [2147483658, 1, 7] 5 96).Num →
              (TBitArray.mk [2147483658, 1, 7] 5 96).storageBit g = false) →
            it0.GetIndex = (TBitArray.mk [2147483658, 1, 7] 5 96).Num))
      ∧ ∀ (k : Nat) (it : FSetBitIterator),
          (TBitArray.mk [2147483658, 1, 7] 5 96).sparseAfter 4 k = some it →
          0 ≤ it.GetIndex ∧ it.GetIndex ≤ (TBitArray.mk [2147483658, 1, 7] 5 96).Num
            ∧ (it.GetIndex < (TBitArray.mk [2147483658, 1, 7] 5 96).Num →
                (TBitArray.mk [2147483658, 1, 7] 5 96).storageBit it.GetIndex.toNat = true)
            ∧ (it.toBool (TBitArray.mk [2147483658, 1, 7] 5 96) = true →
                ∃ it1, it.next (TBitArray.mk [2147483658, 1, 7] 5 96) = some it1
                  ∧ ((∀ g : Nat, it.GetIndex < (g : Int) →
                        (g : Int) < (TBitArray.mk [2147483658, 1, 7] 5 96).Num →
                        (TBitArray.mk [2147483658, 1, 7] 5 96).storageBit g = false) →
                      it1.GetIndex = (TBitArray.mk [2147483658, 1, 7] 5 96).Num)))
    ∧ (TBitArray.mk [2147483658, 1, 7] 5 96).storageBit 31 = true
    ∧ ((TBitArray.mk [2147483658, 1, 7] 5 96).SetBitIterator 4).map (fun it => it.GetIndex)
        = some 5
    ∧ ((TBitArray.mk [2147483658, 1, 7] 5 96).sparseAfter 0 2).map (fun it => it.GetIndex)
        = some 5 :=
  ⟨sparse_cursor_guard (TBitArray.mk [2147483658, 1, 7] 5 96) 4 (by decide) (by decide)
    (by decide) (by decide), by decide, by decide, by decide⟩

theorem isSet_in_range {a : TBitArray} (hT : a.WellTyped) (hI : a.Invariant) (m : Nat)
    (hm : (m : Int) < a.NumBits) : a.IsSet (m : Int) = some (a.storageBit m) := by
  rw [isSet_eq hT hI, Int.toNat_ofNat]
  have : (0 : Int) ≤ (m : Int) ∧ (m : Int) < a.NumBits := ⟨by omega, hm⟩
  simp [this]

/-- C5: for every state satisfying the structural invariant and every start index `s` with
`0 <= s <= Num()`, the cursor `Iterator(s)` dereferenced and advanced while its boolean
conversion is true yields exactly `Num() - s` values, the `k`-th of which has
`GetIndex() = s + k` and dereferences to `IsSet(s + k)`; afterwards the boolean conversion is
false and the cursor compares equal to `end()`. -/
theorem dense_traversal_yields (a : TBitArray) (s : Int) (hT : a.WellTyped) (hI : a.Invariant)
    (h0 : 0 ≤ s) (h1 : s ≤ a.Num) :
    ∃ (vs : List (Int × Bool)) (e : FBitIterator), a.denseTraversal s = some (vs, e)
      ∧ vs.length = (a.Num - s).toNat
      ∧ vs.map (fun p => (p.1, some p.2))
          = (List.range (a.Num - s).toNat).map
              (fun (k : Nat) => (s + (k : Int), a.IsSet (s + (k : Int))))
      ∧ e.toBool a = false ∧ e.eq a.end_ = true := by
  obtain ⟨n, rfl⟩ := Int.eq_ofNat_of_zero_le h0
  obtain ⟨N, hN⟩ := Int.eq_ofNat_of_zero_le hI.2.1
  unfold Num at *
  have hM := maxBits_le hT hI
  have hI3 := hI.2.2
  have hnN : n ≤ N := by omega
  have hloop := denseLoop_spec hT hI N hN N n hnN (by omega)
  have e1 : ((N : Int) - (n : Int)).toNat = N - n := by omega
  refine ⟨(List.range' n (N - n)).map (fun (k : Nat) => ((k : Int), a.storageBit k)),
    { DWORDIndex := ((N / 32 : Nat) : Int), Mask := 2 ^ (N % 32), Index := (N : Int) },
    ?_, ?_, ?_, ?_, ?_⟩
  · unfold denseTraversal Iterator FBitIterator.Begin
    rw [ofIndex_natCast n (by omega), hN, Int.toNat_ofNat]
    exact hloop
  · rw [hN, e1]; simp
  · rw [hN, e1, List.range'_eq_map_range, List.map_map, List.map_map]
    apply List.map_congr_left
    intro k hk
    have hk2 : k < N - n := List.mem_range.1 hk
    have h3 := isSet_in_range hT hI (n + k) (by omega)
    simp only [Function.comp, Nat.cast_add] at h3 ⊢
    rw [h3]
  · simp [FBitIterator.toBool, Num, hN]
  · simp [FBitIterator.eq, end_, FBitIterator.End, hN]

/-- C5 witness: length 5 with bits 1 and 3 set, start 0, yields
`[false, true, false, true, false]`. -/
theorem dense_traversal_yields_witness :
    (∃ (vs : List (Int × Bool)) (e : FBitIterator),
        (TBitArray.mk [10] 5 32).denseTraversal 0 = some (vs, e)
      ∧ vs.length = ((TBitArray.mk [10] 5 32).Num - 0).toNat
      ∧ vs.map (fun p => (p.1, some p.2))
          = (List.range ((TBitArray.mk [10] 5 32).Num - 0).toNat).map
              (fun (k : Nat) => (0 + (k : Int), (TBitArray.mk [10] 5 32).IsSet (0 + (k : Int))))
      ∧ e.toBool (TBitArray.mk [10] 5 32) = false ∧ e.eq (TBitArray.mk [10] 5 32).end_ = true)
    ∧ ((TBitArray.mk [10] 5 32).denseTraversal 0).map (fun r => r.1.map (fun p => p.2))
        = some [false, true, false, true, false] :=
  ⟨dense_traversal_yields (TBitArray.mk [10] 5 32) 0 (by decide) (by decide) (by decide)
    (by decide), by decide⟩

/-! ## Out-of-range reads and copies -/

/-- C11: in every array state, `IsSet(index)` with `index < 0` or `index >= Num()` returns
false whatever the words are (also when there is no word at all, so no word is read); for an
`int32` index with `0 <= index < Num()` it returns exactly what reading bit `index & 31` of
word `index >> 5` gives, and in a state satisfying the structural invariant that word
exists. -/
theorem isSet_out_of_range_defined :
    (∀ (a : TBitArray) (index : Int), (index < 0 ∨ index ≥ a.Num) →
        a.IsSet index = some false
          ∧ ∀ Data : List Nat,
              IsSet { Data := Data, NumBits := a.NumBits, MaxBits := a.MaxBits } index = some false)
      ∧ (∀ (a : TBitArray) (index : Int), IsInt32 index → 0 ≤ index → index < a.Num →
          a.IsSet index
            = (readWord a.Data (index >>> (5 : Nat))).map
                (fun w => w.testBit (andInt32 index 31).toNat))
      ∧ (∀ (a : TBitArray) (index : Int), a.WellTyped → a.Invariant → 0 ≤ index →
          index < a.Num →
          ∃ w, readWord a.Data (index >>> (5 : Nat)) = some w
            ∧ a.IsSet index = some (w.testBit (andInt32 index 31).toNat)) := by
  have key : ∀ (a : TBitArray) (n : Nat), n < 2147483648 → (n : Int) < a.NumBits →
      a.IsSet (n : Int)
        = (readWord a.Data ((n : Int) >>> (5 : Nat))).map
            (fun w => w.testBit (andInt32 (n : Int) 31).toNat) := by
    intro a n hn hlt
    have e2 : (andInt32 (n : Int) 31).toNat = n % 32 := by
      have := andInt32_low n hn
      unfold NumBitsPerDWORD at this
      norm_num at this
      rw [this]; rfl
    unfold IsSet
    rw [if_neg (by omega)]
    simp only [FBitIterator.deref, FBitIterator.Begin, ofIndex_natCast n hn, shiftRight_five, e2,
      and_two_pow_ne_zero]
    cases readWord a.Data ((n / 32 : Nat) : Int) <;> rfl
  refine ⟨?_, ?_, ?_⟩
  · intro a index h
    unfold Num at h
    constructor
    · unfold IsSet; rw [if_pos h]
    · intro Data
      unfold IsSet; rw [if_pos h]
  · intro a index hi h0 h1
    obtain ⟨n, rfl⟩ := Int.eq_ofNat_of_zero_le h0
    unfold IsInt32 at hi
    exact key a n (by omega) h1
  · intro a index hT hI h0 h1
    obtain ⟨n, rfl⟩ := Int.eq_ofNat_of_zero_le h0
    unfold Num at h1
    have hM := maxBits_le hT hI
    have hI1 := hI.1
    have hI3 := hI.2.2
    have hlen : n / 32 < a.Data.length := by omega
    refine ⟨a.Data.getD (n / 32) 0, ?_, ?_⟩
    · rw [shiftRight_five]; exact readWord_getD _ _ hlen
    · rw [key a n (by omega) h1, shiftRight_five, readWord_getD _ _ hlen]; rfl

/-- C11 witness: length 5 with bits 1 and 3 set; index 3 is read from word 0, and the
indices -1, 5 and 40 read false, also on an array that has a length but no words. -/
theorem isSet_out_of_range_defined_witness :
    ((TBitArray.mk [10] 5 32).IsSet 5 = some false
        ∧ ∀ Data : List Nat, IsSet { Data := Data, NumBits := 5, MaxBits := 32 } 5 = some false)
      ∧ (TBitArray.mk [10] 5 32).IsSet 3
          = (readWord [10] ((3 : Int) >>> (5 : Nat))).map
              (fun w => w.testBit (andInt32 3 31).toNat)
      ∧ (TBitArray.mk [10] 5 32).IsSet 3 = some true
      ∧ (TBitArray.mk [10] 5 32).IsSet (-1) = some false
      ∧ (TBitArray.mk [10] 5 32).IsSet 40 = some false
      ∧ (TBitArray.mk [] 5 32).IsSet 40 = some false :=
  ⟨isSet_out_of_range_defined.1 (TBitArray.mk [10] 5 32) 5 (by decide),
    isSet_out_of_range_defined.2.1 (TBitArray.mk [10] 5 32) 3 (by decide) (by decide) (by decide),
    by decide, by decide, by decide, by decide⟩

/-- C14 (amended): for every state satisfying the structural invariant and every index `i`
with `Num() <= i < 2147483616`, `Set(i, true, suppressLengthGrowth = true)` succeeds; afterwards
the storage bit at index `i` is 1 and `Num()` is unchanged, so `IsSet(i)` returns false and
the bit lies at an index `>= Num()`. -/
theorem suppressed_set_is_hidden (a : TBitArray) (i : Int) (hT : a.WellTyped)
    (hI : a.Invariant) (h0 : a.Num ≤ i) (h1 : i < 2147483616) :
    ∃ b, a.Set i true true = some b ∧ b.storageBit i.toNat = true ∧ b.Num = a.Num
      ∧ b.IsSet i = some false ∧ b.Num ≤ i := by
  unfold Num at h0
  have hN0 := hI.2.1
  obtain ⟨b, n, rfl, hn, hb, hbT, hbI⟩ := set_some hT hI i (by omega) h1 true true
  obtain ⟨b', hb', hN, -⟩ := set_spec hT hI n hn true true
  rw [hb] at hb'; cases hb'
  simp only [if_true] at hN
  refine ⟨b, hb, ?_, hN, ?_, ?_⟩
  · rw [Int.toNat_ofNat, storageBit_set hT hI n hn true true hb n, if_pos rfl]
  · unfold IsSet; rw [if_pos (Or.inr (by rw [hN]; exact h0))]
  · unfold Num; rw [hN]; exact h0

/-- C14 witness: bit 20 is written with the flag suppressed into an array of length 5. -/
theorem suppressed_set_is_hidden_witness :
    (∃ b, (TBitArray.mk [10] 5 32).Set 20 true true = some b ∧ b.storageBit (20 : Int).toNat = true
      ∧ b.Num = (TBitArray.mk [10] 5 32).Num ∧ b.IsSet 20 = some false ∧ b.Num ≤ 20)
    ∧ (TBitArray.mk [10] 5 32).Set 20 true true = some (TBitArray.mk [1048586] 5 32) :=
  ⟨suppressed_set_is_hidden (TBitArray.mk [10] 5 32) 20 (by decide) (by decide) (by decide)
    (by decide), by decide⟩

/-- C14 counterexample: on the default-constructed array the index `2147483647` is `>= Num()`,
yet `Set(2147483647, true, true)` skips growth (`Index + 1` wraps to a negative number) and
has no word to store the bit in. -/
theorem suppressed_set_is_hidden_fails :
    TBitArray.empty.WellTyped ∧ TBitArray.empty.Invariant
      ∧ TBitArray.empty.Num ≤ 2147483647
      ∧ TBitArray.empty.EnsureCapacity 2147483647 = some TBitArray.empty
      ∧ ¬ ∃ b, TBitArray.empty.Set 2147483647 true true = some b
            ∧ b.storageBit (2147483647 : Int).toNat = true := by
  refine ⟨by decide, by decide, by decide, by decide, ?_⟩
  rintro ⟨b, hb, -⟩
  have : TBitArray.empty.Set 2147483647 true true = none := by decide
  rw [this] at hb
  exact Option.noConfusion hb

/-! ## Positions and comparisons of the dense cursor -/

theorem iterator_natCast (a : TBitArray) (n : Nat) (hn : n < 2147483648) :
    a.Iterator (n : Int)
      = { DWORDIndex := ((n / 32 : Nat) : Int), Mask := 2 ^ (n % 32), Index := (n : Int) } := by
  unfold Iterator FBitIterator.Begin
  rw [ofIndex_natCast n hn]

theorem iterate_next (a : TBitArray) (n : Nat) :
    ∀ k : Nat, n + k < 2147483648 →
      Nat.iterate FBitIterator.next k (a.Iterator (n : Int)) = a.Iterator ((n + k : Nat) : Int) := by
  intro k
  induction k with
  | zero => intro _; rfl
  | succ k ih =>
    intro h
    rw [Function.iterate_succ_apply', ih (by omega), iterator_natCast a (n + k) (by omega),
      dense_next (n + k) (by omega), iterator_natCast a (n + (k + 1)) h]
    rfl

/-- C15: for every start index `s >= 0` and every number `k` of advances with `s + k`
representable in `int32`, the cursor obtained from `Iterator(s)` by `k` applications of `++`
is the cursor `Iterator(s + k)`: its `Index` is `s + k`, and its `DWORDIndex` and `Mask` are the
`(s + k) >> 5` and `1 << ((s + k) & 31)` that `FRelativeBitReference(s + k)` computes, that is
word `(s + k) / 32` and the single bit `(s + k) mod 32`. -/
theorem dense_cursor_incremental (a : TBitArray) (s : Int) (k : Nat) (h0 : 0 ≤ s)
    (h1 : s + (k : Int) ≤ 2147483647) :
    Nat.iterate FBitIterator.next k (a.Iterator s) = a.Iterator (s + (k : Int))
      ∧ (Nat.iterate FBitIterator.next k (a.Iterator s)).Index = s + (k : Int)
      ∧ (Nat.iterate FBitIterator.next k (a.Iterator s)).toFRelativeBitReference
          = FRelativeBitReference.ofIndex (s + (k : Int))
      ∧ (Nat.iterate FBitIterator.next k (a.Iterator s)).DWORDIndex
          = (s + (k : Int)) >>> (5 : Nat)
      ∧ (Nat.iterate FBitIterator.next k (a.Iterator s)).Mask
          = toUInt32 (oneShlInt32 (andInt32 (s + (k : Int)) 31))
      ∧ (Nat.iterate FBitIterator.next k (a.Iterator s)).DWORDIndex = (s + (k : Int)) / 32
      ∧ (Nat.iterate FBitIterator.next k (a.Iterator s)).Mask
          = 2 ^ ((s + (k : Int)) % 32).toNat := by
  obtain ⟨n, rfl⟩ := Int.eq_ofNat_of_zero_le h0
  have hnk : n + k < 2147483648 := by omega
  have e : (n : Int) + (k : Int) = ((n + k : Nat) : Int) := by push_cast; rfl
  rw [e, iterate_next a n k hnk]
  have e31 : NumBitsPerDWORD - 1 = 31 := by decide
  refine ⟨rfl, rfl, rfl, rfl, ?_, ?_, ?_⟩
  · simp only [Iterator, FBitIterator.Begin, FRelativeBitReference.ofIndex, e31]
  · rw [iterator_natCast a (n + k) hnk]; push_cast; rfl
  · rw [iterator_natCast a (n + k) hnk]
    have : (((n + k : Nat) : Int) % 32).toNat = (n + k) % 32 := by omega
    rw [this]

/-- C15 witness: from index 30, three advances cross the word boundary; the mask goes from
bit 30 to bit 31 and then wraps to bit 0 of the next word, then to bit 1. -/
theorem dense_cursor_incremental_witness :
    (Nat.iterate FBitIterator.next 3 (TBitArray.empty.Iterator 30)
        = TBitArray.empty.Iterator (30 + ((3 : Nat) : Int))
      ∧ (Nat.iterate FBitIterator.next 3 (TBitArray.empty.Iterator 30)).Index
          = 30 + ((3 : Nat) : Int)
      ∧ (Nat.iterate FBitIterator.next 3 (TBitArray.empty.Iterator 30)).toFRelativeBitReference
          = FRelativeBitReference.ofIndex (30 + ((3 : Nat) : Int))
      ∧ (Nat.iterate FBitIterator.next 3 (TBitArray.empty.Iterator 30)).DWORDIndex
          = (30 + ((3 : Nat) : Int)) >>> (5 : Nat)
      ∧ (Nat.iterate FBitIterator.next 3 (TBitArray.empty.Iterator 30)).Mask
          = toUInt32 (oneShlInt32 (andInt32 (30 + ((3 : Nat) : Int)) 31))
      ∧ (Nat.iterate FBitIterator.next 3 (TBitArray.empty.Iterator 30)).DWORDIndex
          = (30 + ((3 : Nat) : Int)) / 32
      ∧ (Nat.iterate FBitIterator.next 3 (TBitArray.empty.Iterator 30)).Mask
          = 2 ^ ((30 + ((3 : Nat) : Int)) % 32).toNat)
    ∧ (List.range 4).map (fun k =>
          ((Nat.iterate FBitIterator.next k (TBitArray.empty.Iterator 30)).DWORDIndex,
           (Nat.iterate FBitIterator.next k (TBitArray.empty.Iterator 30)).Mask))
        = [(0, 1073741824), (0, 2147483648), (1, 1), (1, 2)] :=
  ⟨dense_cursor_incremental TBitArray.empty 30 3 (by decide) (by decide), by decide⟩

/-- C17: for all dense cursors `x` and `y`, `x != y` returns true exactly when
`x.Index < y.Index` and `x == y` returns true exactly when `x.Index = y.Index`; hence `x != y`
is the negation of `x == y` whenever `x.Index <= y.Index`, and both are false when
`x.Index > y.Index`.  A cursor advanced `k` times from a start `s` with `s + k <= Num()`
compares `!= end()` exactly while its index is below `Num()`, and stops comparing so exactly
when its index is `Num()`. -/
theorem dense_ne_is_less_than :
    (∀ x y : FBitIterator,
        (x.ne y = true ↔ x.Index < y.Index) ∧ (x.eq y = true ↔ x.Index = y.Index)
          ∧ (x.Index ≤ y.Index → x.ne y = !x.eq y)
          ∧ (x.Index > y.Index → x.eq y = false ∧ x.ne y = false))
      ∧ (∀ (a : TBitArray) (s : Int) (k : Nat), a.WellTyped → 0 ≤ s → s + (k : Int) ≤ a.Num →
          ((Nat.iterate FBitIterator.next k (a.Iterator s)).ne a.end_ = true
              ↔ s + (k : Int) < a.Num)
            ∧ ((Nat.iterate FBitIterator.next k (a.Iterator s)).ne a.end_ = false
              ↔ (Nat.iterate FBitIterator.next k (a.Iterator s)).Index = a.Num)) := by
  have hne : ∀ x y : FBitIterator, (x.ne y = true ↔ x.Index < y.Index) := by
    intro x y; simp [FBitIterator.ne]
  have heq : ∀ x y : FBitIterator, (x.eq y = true ↔ x.Index = y.Index) := by
    intro x y; simp [FBitIterator.eq]
  constructor
  · intro x y
    refine ⟨hne x y, heq x y, ?_, ?_⟩
    · intro hle
      by_cases h : x.Index = y.Index
      · have h1 : x.eq y = true := (heq x y).2 h
        have h2 : ¬ x.ne y = true := fun h3 => by have := (hne x y).1 h3; omega
        rw [h1]; simpa using h2
      · have h1 : ¬ x.eq y = true := fun h3 => h ((heq x y).1 h3)
        have h2 : x.ne y = true := (hne x y).2 (by omega)
        rw [h2]; simpa using h1
    · intro hgt
      constructor
      · have h1 : ¬ x.eq y = true := fun h3 => by have := (heq x y).1 h3; omega
        simpa using h1
      · have h2 : ¬ x.ne y = true := fun h3 => by have := (hne x y).1 h3; omega
        simpa using h2
  · intro a s k hT h0 h1
    have hN := hT.1.2
    unfold Num at h1 ⊢
    obtain ⟨n, rfl⟩ := Int.eq_ofNat_of_zero_le h0
    have e : (n : Int) + (k : Int) = ((n + k : Nat) : Int) := by push_cast; rfl
    have hidx : (Nat.iterate FBitIterator.next k (a.Iterator (n : Int))).Index
        = ((n + k : Nat) : Int) := by
      rw [iterate_next a n k (by omega)]; rfl
    have hend : a.end_.Index = a.NumBits := rfl
    constructor
    · rw [hne, hidx, hend, e]
    · constructor
      · intro h
        have h2 : ¬ (Nat.iterate FBitIterator.next k (a.Iterator (n : Int))).ne a.end_ = true := by
          rw [h]; exact Bool.false_ne_true
        rw [hne, hidx, hend] at h2
        rw [hidx]; omega
      · intro h
        have h2 : ¬ (Nat.iterate FBitIterator.next k (a.Iterator (n : Int))).ne a.end_ = true := by
          rw [hne, h, hend]; omega
        simpa using h2

/-- C17 witness: cursors at indices 2 and 5 of an array of length 5. -/
theorem dense_ne_is_less_than_witness :
    ((TBitArray.mk [10] 5 32).Iterator 2).ne ((TBitArray.mk [10] 5 32).Iterator 5)
        = !((TBitArray.mk [10] 5 32).Iterator 2).eq ((TBitArray.mk [10] 5 32).Iterator 5)
      ∧ (((TBitArray.mk [10] 5 32).Iterator 5).eq ((TBitArray.mk [10] 5 32).Iterator 2) = false
          ∧ ((TBitArray.mk [10] 5 32).Iterator 5).ne ((TBitArray.mk [10] 5 32).Iterator 2) = false)
      ∧ (((Nat.iterate FBitIterator.next 3 ((TBitArray.mk [10] 5 32).Iterator 2)).ne
              (TBitArray.mk [10] 5 32).end_ = true
            ↔ (2 : Int) + ((3 : Nat) : Int) < (TBitArray.mk [10] 5 32).Num)
          ∧ ((Nat.iterate FBitIterator.next 3 ((TBitArray.mk [10] 5 32).Iterator 2)).ne
              (TBitArray.mk [10] 5 32).end_ = false
            ↔ (Nat.iterate FBitIterator.next 3 ((TBitArray.mk [10] 5 32).Iterator 2)).Index
                = (TBitArray.mk [10] 5 32).Num)) :=
  ⟨(dense_ne_is_less_than.1 _ _).2.2.1 (by decide),
    (dense_ne_is_less_than.1 _ _).2.2.2 (by decide),
    dense_ne_is_less_than.2 (TBitArray.mk [10] 5 32) 2 3 (by decide) (by decide) (by decide)⟩

/-- C20: `cursor < n` is true exactly when the cursor's index is below `n`; `cursor > n` has
the same body and is also true exactly when the index is below `n`, not above it: the cursor
at index 5 is not `> 3`, and the cursor at index 3 is `> 5`. -/
theorem dense_gt_is_coded_as_lt :
    (∀ (it : FBitIterator) (n : Int), it.lt n = true ↔ it.Index < n)
      ∧ (∀ (it : FBitIterator) (n : Int), it.gt n = true ↔ it.Index < n)
      ∧ (∀ (it : FBitIterator) (n : Int), it.gt n = it.lt n)
      ∧ (TBitArray.empty.Iterator 5).gt 3 = false
      ∧ (TBitArray.empty.Iterator 3).gt 5 = true := by
  refine ⟨?_, ?_, ?_, by decide, by decide⟩
  · intro it n; simp [FBitIterator.lt]
  · intro it n; simp [FBitIterator.gt]
  · intro it n; rfl

/-! ## Lowest set bit -/

/-- C16: for every nonzero 32-bit word `w`, `m = w XOR (w AND (w - 1))` (the mask the sparse
scan computes) has exactly one bit set, at the position `p` of the least significant 1 bit of
`w`, and `32 - 1 - CountLeadingZeros(m) = p`; hence for a word base `B` that is a multiple of
32 the index `B + 31 - CountLeadingZeros(m)` is the smallest logical index in `[B, B + 31]`
whose bit is 1 in `w`, and the scan's machine expression computes that index.
`CountLeadingZeros(0) = 32`. -/
theorem lowest_set_bit_index :
    (∀ w : Nat, w ≠ 0 → w < 4294967296 →
      ∃ p, p < 32
        ∧ w ^^^ (w &&& (w - 1)) = (w &&& (w - 1)) ^^^ w
        ∧ w ^^^ (w &&& (w - 1)) = 2 ^ p
        ∧ (∀ j, (w ^^^ (w &&& (w - 1))).testBit j = decide (j = p))
        ∧ w.testBit p = true ∧ (∀ b, b < p → w.testBit b = false)
        ∧ 32 - 1 - CountLeadingZeros (w ^^^ (w &&& (w - 1))) = p
        ∧ (∀ B : Nat, 32 ∣ B →
            B ≤ B + 31 - CountLeadingZeros (w ^^^ (w &&& (w - 1)))
              ∧ B + 31 - CountLeadingZeros (w ^^^ (w &&& (w - 1))) ≤ B + 31
              ∧ w.testBit (B + 31 - CountLeadingZeros (w ^^^ (w &&& (w - 1))) - B) = true
              ∧ ∀ g, B ≤ g → g < B + 31 - CountLeadingZeros (w ^^^ (w &&& (w - 1))) →
                  w.testBit (g - B) = false)
        ∧ (∀ d : Nat, 32 * d < 2147483616 →
            toInt32 (toUInt32 (wrapInt32 (wrapInt32 (32 * (d : Int) + NumBitsPerDWORD) - 1)
                - ((CountLeadingZeros (w ^^^ (w &&& (w - 1))) : Nat) : Int)))
              = ((32 * d + p : Nat) : Int)))
      ∧ CountLeadingZeros 0 = 32 := by
  refine ⟨?_, by decide⟩
  intro w hw hlt
  obtain ⟨p, hp, hmask, hbit, hlow⟩ := lowest_bit_isolate w hw hlt
  have hm : w ^^^ (w &&& (w - 1)) = 2 ^ p := by rw [Nat.xor_comm]; exact hmask
  have hclz : CountLeadingZeros (w ^^^ (w &&& (w - 1))) = 31 - p := by
    rw [hm]; exact countLeadingZeros_two_pow p hp
  refine ⟨p, hp, Nat.xor_comm _ _, hm, ?_, hbit, hlow, ?_, ?_, ?_⟩
  · intro j
    rw [hm, Nat.testBit_two_pow]
    by_cases h : p = j
    · subst h; simp
    · have h2 : ¬ j = p := fun e => h e.symm
      simp [h, h2]
  · rw [hclz]; omega
  · intro B _
    rw [hclz]
    have e : B + 31 - (31 - p) = B + p := by omega
    rw [e]
    refine ⟨by omega, by omega, ?_, ?_⟩
    · have : B + p - B = p := by omega
      rw [this]; exact hbit
    · intro g h1 h2
      exact hlow (g - B) (by omega)
  · intro d hd
    rw [hclz]
    exact found_index d p hp _ rfl hd

/-- C16 witness: the word with bits 3, 5 and 31 set. -/
theorem lowest_set_bit_index_witness :
    (∃ p, p < 32
        ∧ 2147483688 ^^^ (2147483688 &&& (2147483688 - 1))
            = (2147483688 &&& (2147483688 - 1)) ^^^ 2147483688
        ∧ 2147483688 ^^^ (2147483688 &&& (2147483688 - 1)) = 2 ^ p
        ∧ (∀ j, (2147483688 ^^^ (2147483688 &&& (2147483688 - 1))).testBit j = decide (j = p))
        ∧ Nat.testBit 2147483688 p = true ∧ (∀ b, b < p → Nat.testBit 2147483688 b = false)
        ∧ 32 - 1 - CountLeadingZeros (2147483688 ^^^ (2147483688 &&& (2147483688 - 1))) = p
        ∧ (∀ B : Nat, 32 ∣ B →
            B ≤ B + 31 - CountLeadingZeros (2147483688 ^^^ (2147483688 &&& (2147483688 - 1)))
              ∧ B + 31 - CountLeadingZeros (2147483688 ^^^ (2147483688 &&& (2147483688 - 1)))
                  ≤ B + 31
              ∧ Nat.testBit 2147483688
                  (B + 31 - CountLeadingZeros (2147483688 ^^^ (2147483688 &&& (2147483688 - 1)))
                    - B) = true
              ∧ ∀ g, B ≤ g →
                  g < B + 31
                      - CountLeadingZeros (2147483688 ^^^ (2147483688 &&& (2147483688 - 1))) →
                  Nat.testBit 2147483688 (g - B) = false)
        ∧ (∀ d : Nat, 32 * d < 2147483616 →
            toInt32 (toUInt32 (wrapInt32 (wrapInt32 (32 * (d : Int) + NumBitsPerDWORD) - 1)
                - ((CountLeadingZeros (2147483688 ^^^ (2147483688 &&& (2147483688 - 1))) : Nat)
                    : Int)))
              = ((32 * d + p : Nat) : Int)))
      ∧ 2147483688 ^^^ (2147483688 &&& (2147483688 - 1)) = 8
      ∧ CountLeadingZeros 8 = 28 :=
  ⟨lowest_set_bit_index.1 2147483688 (by decide) (by decide), by decide, by decide⟩

/-! ## Termination of the sparse scan and in-range access -/

theorem scan_fuel_succ (a : TBitArray) (L : Int) :
    ∀ (fuel : Nat) (it : FSetBitIterator) (R : Nat) (r : FSetBitIterator),
      FSetBitIterator.FindNextSetBit.scan a L fuel it R = some r →
      FSetBitIterator.FindNextSetBit.scan a L (fuel + 1) it R = some r := by
  intro fuel
  induction fuel with
  | zero =>
    intro it R r h
    rw [FSetBitIterator.FindNextSetBit.scan] at h
    exact Option.noConfusion h
  | succ fuel ih =>
    intro it R r h
    rw [FSetBitIterator.FindNextSetBit.scan] at h ⊢
    by_cases hR : R = 0
    · rw [if_pos hR] at h ⊢
      by_cases hl : wrapInt32 (it.DWORDIndex + 1) > L
      · rw [if_pos hl] at h ⊢; exact h
      · rw [if_neg hl] at h ⊢
        cases hw : readWord a.Data (wrapInt32 (it.DWORDIndex + 1)) with
        | none => rw [hw] at h; exact Option.noConfusion h
        | some w =>
          rw [hw] at h
          exact ih _ _ _ h
    · rw [if_neg hR] at h ⊢; exact h

theorem scan_fuel_mono (a : TBitArray) (L : Int) (fuel : Nat) (it : FSetBitIterator) (R : Nat)
    (r : FSetBitIterator) (h : FSetBitIterator.FindNextSetBit.scan a L fuel it R = some r) :
    ∀ k : Nat, FSetBitIterator.FindNextSetBit.scan a L (fuel + k) it R = some r := by
  intro k
  induction k with
  | zero => exact h
  | succ k ih => exact scan_fuel_succ a L (fuel + k) it R r ih

theorem wrap_succ_of_le (d L : Int) (h0 : -2147483648 ≤ d) (h1 : d ≤ L) (h2 : L ≤ 2147483646) :
    wrapInt32 (d + 1) = d + 1 := by
  unfold wrapInt32; omega

theorem scan_fuel_suffices (a : TBitArray) (L : Int) (hL : L ≤ 2147483646) :
    ∀ (fuel : Nat) (it : FSetBitIterator) (R : Nat), -2147483648 ≤ it.DWORDIndex →
      it.DWORDIndex ≤ L → (L - it.DWORDIndex + 1).toNat ≤ fuel →
      FSetBitIterator.FindNextSetBit.scan a L fuel it R = none →
      ∃ j : Int, it.DWORDIndex < j ∧ j ≤ L ∧ readWord a.Data j = none := by
  intro fuel
  induction fuel with
  | zero =>
    intro it R h0 h1 h2 _
    omega
  | succ fuel ih =>
    intro it R h0 h1 h2 h
    have hw := wrap_succ_of_le it.DWORDIndex L h0 h1 hL
    rw [FSetBitIterator.FindNextSetBit.scan] at h
    by_cases hR : R = 0
    · rw [if_pos hR, hw] at h
      by_cases hl : it.DWORDIndex + 1 > L
      · rw [if_pos hl] at h; exact Option.noConfusion h
      · rw [if_neg hl] at h
        cases hr : readWord a.Data (it.DWORDIndex + 1) with
        | none => exact ⟨it.DWORDIndex + 1, by omega, by omega, hr⟩
        | some w =>
          rw [hr] at h
          obtain ⟨j, j1, j2, j3⟩ := ih _ _ (by simp only []; omega) (by simp only []; omega)
            (by simp only []; omega) h
          simp only [] at j1
          exact ⟨j, by omega, j2, j3⟩
    · rw [if_neg hR] at h; exact Option.noConfusion h

theorem lastDWORDIndex_bounds {a : TBitArray} (hT : a.WellTyped) (hI : a.Invariant) :
    0 ≤ FSetBitIterator.LastDWORDIndex a ∧ FSetBitIterator.LastDWORDIndex a ≤ 67108863
      ∧ (a.Data ≠ [] → FSetBitIterator.LastDWORDIndex a < (a.Data.length : Int)) := by
  have hM := maxBits_le hT hI
  obtain ⟨h1, h2, h3⟩ := hI
  obtain ⟨N, hN⟩ := Int.eq_ofNat_of_zero_le h2
  unfold FSetBitIterator.LastDWORDIndex
  rw [hN]
  by_cases h0 : N = 0
  · subst h0
    have e : Int.tdiv (wrapInt32 (((0 : Nat) : Int) - 1)) NumBitsPerDWORD = 0 := by decide
    rw [e]
    refine ⟨le_refl _, by norm_num, ?_⟩
    intro hne
    have : 0 < a.Data.length := List.length_pos.2 hne
    omega
  · rw [last_index N (by omega) (by omega)]
    refine ⟨by omega, by omega, ?_⟩
    intro _
    omega

theorem readWord_some_of_lt (Data : List Nat) (j : Int) (h0 : 0 ≤ j)
    (h1 : j < (Data.length : Int)) : ∃ w, readWord Data j = some w := by
  obtain ⟨n, rfl⟩ := Int.eq_ofNat_of_zero_le h0
  exact ⟨_, readWord_getD Data n (by omega)⟩

theorem sparseLoop_length (a : TBitArray) :
    ∀ (fuel : Nat) (it : FSetBitIterator) (l : List Int) (e : FSetBitIterator),
      a.sparseLoop fuel it = some (l, e) → l.length ≤ fuel := by
  intro fuel
  induction fuel with
  | zero =>
    intro it l e h
    rw [sparseLoop] at h
    split at h
    · exact Option.noConfusion h
    · cases h; simp
  | succ fuel ih =>
    intro it l e h
    rw [sparseLoop] at h
    split at h
    · cases h1 : it.next a with
      | none => rw [h1] at h; exact Option.noConfusion h
      | some it1 =>
        rw [h1] at h
        simp only [] at h
        cases h2 : a.sparseLoop fuel it1 with
        | none => rw [h2] at h; exact Option.noConfusion h
        | some r =>
          obtain ⟨l1, e1⟩ := r
          rw [h2] at h
          simp only [Option.some.injEq, Prod.mk.injEq] at h
          obtain ⟨h3, h4⟩ := h
          subst h3 h4
          have := ih it1 l1 e1 h2
          simp only [List.length_cons]; omega
    · cases h; simp

theorem findNextSetBit_fuel {a : TBitArray} (hT : a.WellTyped) (hI : a.Invariant)
    (it : FSetBitIterator) (h0 : 0 ≤ it.DWORDIndex)
    (h1 : it.DWORDIndex ≤ FSetBitIterator.LastDWORDIndex a) :
    ∃ r, FSetBitIterator.FindNextSetBit a it = some r
      ∧ ∀ w, readWord a.Data it.DWORDIndex = some w → ∀ fuel : Nat,
          (FSetBitIterator.LastDWORDIndex a - it.DWORDIndex + 1).toNat ≤ fuel →
          FSetBitIterator.FindNextSetBit.scan a (FSetBitIterator.LastDWORDIndex a) fuel it
            (w &&& it.UnvisitedBitMask) = some r := by
  obtain ⟨b1, b2, b3⟩ := lastDWORDIndex_bounds hT hI
  by_cases hD : a.Data = []
  · refine ⟨{ it with CurrentBitIndex := a.NumBits }, ?_, ?_⟩
    · unfold FSetBitIterator.FindNextSetBit; rw [hD]; rfl
    · intro w hw
      rw [hD] at hw
      unfold readWord at hw
      split at hw
      · simp at hw
      · exact Option.noConfusion hw
  · have b4 := b3 hD
    obtain ⟨w0, hw0⟩ := readWord_some_of_lt a.Data it.DWORDIndex h0 (by omega)
    have hmin : ∃ r, FSetBitIterator.FindNextSetBit.scan a (FSetBitIterator.LastDWORDIndex a)
        (FSetBitIterator.LastDWORDIndex a - it.DWORDIndex + 1).toNat it
        (w0 &&& it.UnvisitedBitMask) = some r := by
      cases hs : FSetBitIterator.FindNextSetBit.scan a (FSetBitIterator.LastDWORDIndex a)
          (FSetBitIterator.LastDWORDIndex a - it.DWORDIndex + 1).toNat it
          (w0 &&& it.UnvisitedBitMask) with
      | some r => exact ⟨r, rfl⟩
      | none =>
        exfalso
        obtain ⟨j, j1, j2, j3⟩ := scan_fuel_suffices a _ (by omega) _ it _ (by omega) h1
          (le_refl _) hs
        obtain ⟨w, hw⟩ := readWord_some_of_lt a.Data j (by omega) (by omega)
        rw [hw] at j3
        exact Option.noConfusion j3
    obtain ⟨r, hr⟩ := hmin
    have hge : ∀ fuel : Nat,
        (FSetBitIterator.LastDWORDIndex a - it.DWORDIndex + 1).toNat ≤ fuel →
        FSetBitIterator.FindNextSetBit.scan a (FSetBitIterator.LastDWORDIndex a) fuel it
          (w0 &&& it.UnvisitedBitMask) = some r := by
      intro fuel hf
      have := scan_fuel_mono a _ _ it _ r hr
        (fuel - (FSetBitIterator.LastDWORDIndex a - it.DWORDIndex + 1).toNat)
      rwa [Nat.add_sub_cancel' hf] at this
    refine ⟨r, ?_, ?_⟩
    · have hne : a.Data.isEmpty = false := by
        cases hD2 : a.Data with
        | nil => exact absurd hD2 hD
        | cons x xs => rfl
      unfold FSetBitIterator.FindNextSetBit
      rw [hne, hw0]
      simp only [Bool.false_eq_true, if_false]
      exact hge (a.Data.length + 1) (by omega)
    · intro w hw fuel hf
      rw [hw0] at hw
      cases hw
      exact hge fuel hf

/-- C18: for every state satisfying the structural invariant and every sparse cursor whose
word index is `<=` the last word index `(Num() - 1) / 32`, the word-skipping loop of
`FindNextSetBit` never needs more than `last word index - current word index + 1` evaluations
of its condition: with that much fuel it can only stop short at a word read outside the
vector, and when the word index is `>= 0` there is none, so `FindNextSetBit` returns, with
the same result for every larger amount of fuel.  A sparse traversal from any start `s` in
`[0, Num()]` reaches the end cursor after at most `Num() - s` advances. -/
theorem sparse_scan_terminates (a : TBitArray) (hT : a.WellTyped) (hI : a.Invariant) :
    (∀ it : FSetBitIterator, -2147483648 ≤ it.DWORDIndex →
        it.DWORDIndex ≤ FSetBitIterator.LastDWORDIndex a →
        (∀ (fuel R : Nat),
            (FSetBitIterator.LastDWORDIndex a - it.DWORDIndex + 1).toNat ≤ fuel →
            FSetBitIterator.FindNextSetBit.scan a (FSetBitIterator.LastDWORDIndex a) fuel it R
              = none →
            ∃ j : Int, it.DWORDIndex < j ∧ j ≤ FSetBitIterator.LastDWORDIndex a
              ∧ readWord a.Data j = none)
          ∧ (0 ≤ it.DWORDIndex →
              ∃ r, FSetBitIterator.FindNextSetBit a it = some r
                ∧ ∀ w, readWord a.Data it.DWORDIndex = some w → ∀ fuel : Nat,
                    (FSetBitIterator.LastDWORDIndex a - it.DWORDIndex + 1).toNat ≤ fuel →
                    FSetBitIterator.FindNextSetBit.scan a (FSetBitIterator.LastDWORDIndex a)
                      fuel it (w &&& it.UnvisitedBitMask) = some r))
      ∧ (∀ s : Int, 0 ≤ s → s ≤ a.Num →
          ∃ (it0 : FSetBitIterator) (l : List Int) (e : FSetBitIterator),
            a.SetBitIterator s = some it0
              ∧ a.sparseLoop (a.Num - s).toNat it0 = some (l, e)
              ∧ l.length ≤ (a.Num - s).toNat ∧ e.eq a.SetBitsItEnd = true) := by
  obtain ⟨b1, b2, b3⟩ := lastDWORDIndex_bounds hT hI
  constructor
  · intro it h0 h1
    constructor
    · intro fuel R hf hs
      exact scan_fuel_suffices a _ (by omega) fuel it R h0 h1 hf hs
    · intro hd
      exact findNextSetBit_fuel hT hI it hd h1
  · intro s h0 h1
    unfold Num at h1 ⊢
    obtain ⟨n, rfl⟩ := Int.eq_ofNat_of_zero_le h0
    obtain ⟨it0, c, e1, e2, e3, e4, -⟩ := begin_spec hT hI n h1
    have hc : (c : Int) ≤ a.NumBits := by
      obtain ⟨c', g1, g2, -⟩ := e2
      omega
    obtain ⟨l, e, f1, f2, -, -⟩ :=
      sparseLoop_spec hT hI (a.NumBits - (n : Int)).toNat it0 c e2 e3 (by omega)
    refine ⟨it0, l, e, e1, f1, sparseLoop_length a _ it0 l e f1, ?_⟩
    unfold FSetBitIterator.eq SetBitsItEnd FSetBitIterator.End
    rw [f2]; simp

/-- C18 witness: three words, length 70, bits 31 and 32 set; the cursor in word 1 with nothing
left unvisited there needs two evaluations of the loop condition (words 1 and 2) to reach the
end, and the traversal from 0 ends after two advances. -/
theorem sparse_scan_terminates_witness :
    ((∀ (fuel R : Nat),
          (FSetBitIterator.LastDWORDIndex (TBitArray.mk [2147483648, 1, 0] 70 96)
              - (FSetBitIterator.mk ⟨1, 1⟩ 0 32 32).DWORDIndex + 1).toNat ≤ fuel →
          FSetBitIterator.FindNextSetBit.scan (TBitArray.mk [2147483648, 1, 0] 70 96)
              (FSetBitIterator.LastDWORDIndex (TBitArray.mk [2147483648, 1, 0] 70 96)) fuel
              (FSetBitIterator.mk ⟨1, 1⟩ 0 32 32) R = none →
          ∃ j : Int, (FSetBitIterator.mk ⟨1, 1⟩ 0 32 32).DWORDIndex < j
            ∧ j ≤ FSetBitIterator.LastDWORDIndex (TBitArray.mk [2147483648, 1, 0] 70 96)
            ∧ readWord (TBitArray.mk [2147483648, 1, 0] 70 96).Data j = none)
        ∧ ((0 : Int) ≤ (FSetBitIterator.mk ⟨1, 1⟩ 0 32 32).DWORDIndex →
            ∃ r, FSetBitIterator.FindNextSetBit (TBitArray.mk [2147483648, 1, 0] 70 96)
                  (FSetBitIterator.mk ⟨1, 1⟩ 0 32 32) = some r
              ∧ ∀ w, readWord (TBitArray.mk [2147483648, 1, 0] 70 96).Data
                    (FSetBitIterator.mk ⟨1, 1⟩ 0 32 32).DWORDIndex = some w → ∀ fuel : Nat,
                  (FSetBitIterator.LastDWORDIndex (TBitArray.mk [2147483648, 1, 0] 70 96)
                      - (FSetBitIterator.mk ⟨1, 1⟩ 0 32 32).DWORDIndex + 1).toNat ≤ fuel →
                  FSetBitIterator.FindNextSetBit.scan (TBitArray.mk [2147483648, 1, 0] 70 96)
                    (FSetBitIterator.LastDWORDIndex (TBitArray.mk [2147483648, 1, 0] 70 96))
                    fuel (FSetBitIterator.mk ⟨1, 1⟩ 0 32 32)
                    (w &&& (FSetBitIterator.mk ⟨1, 1⟩ 0 32 32).UnvisitedBitMask) = some r))
      ∧ FSetBitIterator.LastDWORDIndex (TBitArray.mk [2147483648, 1, 0] 70 96) = 2
      ∧ FSetBitIterator.FindNextSetBit.scan (TBitArray.mk [2147483648, 1, 0] 70 96) 2 2
          (FSetBitIterator.mk ⟨1, 1⟩ 0 32 32) 0
          = some (FSetBitIterator.mk ⟨3, 1⟩ 4294967295 70 96)
      ∧ ((TBitArray.mk [2147483648, 1, 0] 70 96).sparseTraversal 0).map (fun r => r.1)
          = some [31, 32] :=
  ⟨(sparse_scan_terminates (TBitArray.mk [2147483648, 1, 0] 70 96) (by decide) (by decide)).1
      (FSetBitIterator.mk ⟨1, 1⟩ 0 32 32) (by decide) (by decide),
    by decide, by decide, by decide⟩

theorem scan_agree (a b : TBitArray) (L : Int) (hN : b.NumBits = a.NumBits)
    (hW : ∀ j : Int, j ≤ L → readWord b.Data j = readWord a.Data j) :
    ∀ (fuel : Nat) (it : FSetBitIterator) (R : Nat),
      FSetBitIterator.FindNextSetBit.scan b L fuel it R
        = FSetBitIterator.FindNextSetBit.scan a L fuel it R := by
  intro fuel
  induction fuel with
  | zero => intro it R; rfl
  | succ fuel ih =>
    intro it R
    rw [FSetBitIterator.FindNextSetBit.scan, FSetBitIterator.FindNextSetBit.scan]
    by_cases hR : R = 0
    · rw [if_pos hR, if_pos hR]
      by_cases hl : wrapInt32 (it.DWORDIndex + 1) > L
      · rw [if_pos hl, if_pos hl, hN]
      · rw [if_neg hl, if_neg hl, hW _ (by omega)]
        cases readWord a.Data (wrapInt32 (it.DWORDIndex + 1)) with
        | none => rfl
        | some w => exact ih _ _
    · rw [if_neg hR, if_neg hR, hN]

theorem findNextSetBit_agree {a b : TBitArray} (hT : a.WellTyped) (hI : a.Invariant)
    (hN : b.NumBits = a.NumBits)
    (hW : ∀ j : Int, j ≤ FSetBitIterator.LastDWORDIndex a → readWord b.Data j = readWord a.Data j)
    (hD : a.Data ≠ []) (it : FSetBitIterator) (h0 : 0 ≤ it.DWORDIndex)
    (h1 : it.DWORDIndex ≤ FSetBitIterator.LastDWORDIndex a) :
    FSetBitIterator.FindNextSetBit b it = FSetBitIterator.FindNextSetBit a it := by
  obtain ⟨b1, b2, b3⟩ := lastDWORDIndex_bounds hT hI
  have b4 := b3 hD
  obtain ⟨r, hr, hfuel⟩ := findNextSetBit_fuel hT hI it h0 h1
  obtain ⟨w0, hw0⟩ := readWord_some_of_lt a.Data it.DWORDIndex h0 (by omega)
  obtain ⟨wl, hwl⟩ := readWord_some_of_lt a.Data (FSetBitIterator.LastDWORDIndex a) b1 b4
  have hlenb : FSetBitIterator.LastDWORDIndex a < (b.Data.length : Int) := by
    have h := hW _ (le_refl _)
    rw [hwl] at h
    unfold readWord at h
    rw [if_pos b1] at h
    by_contra hcon
    rw [List.getElem?_eq_none (by omega)] at h
    exact Option.noConfusion h
  have hneb : b.Data.isEmpty = false := by
    cases hD2 : b.Data with
    | nil => rw [hD2] at hlenb; simp at hlenb; omega
    | cons x xs => rfl
  have hLb : Int.tdiv (wrapInt32 (b.NumBits - 1)) NumBitsPerDWORD
      = FSetBitIterator.LastDWORDIndex a := by
    rw [hN]; rfl
  rw [hr]
  unfold FSetBitIterator.FindNextSetBit
  rw [hneb, hLb, hW _ h1, hw0]
  simp only [Bool.false_eq_true, if_false]
  rw [scan_agree a b _ hN hW]
  exact hfuel w0 hw0 (b.Data.length + 1) (by omega)

theorem sparseAfter_agree {a b : TBitArray} (hT : a.WellTyped) (hI : a.Invariant)
    (hN : b.NumBits = a.NumBits)
    (hW : ∀ j : Int, j ≤ FSetBitIterator.LastDWORDIndex a → readWord b.Data j = readWord a.Data j)
    (s : Nat) (hs : (s : Int) ≤ a.NumBits) :
    ∀ k : Nat, b.sparseAfter (s : Int) k = a.sparseAfter (s : Int) k := by
  have hM := maxBits_le hT hI
  have hI1 := hI.1
  have hI3 := hI.2.2
  have hlast : ∀ c : Nat, (c : Int) < a.NumBits →
      ((c / 32 : Nat) : Int) ≤ FSetBitIterator.LastDWORDIndex a ∧ a.Data ≠ [] := by
    intro c hc
    obtain ⟨N, hN2⟩ := Int.eq_ofNat_of_zero_le hI.2.1
    constructor
    · unfold FSetBitIterator.LastDWORDIndex
      rw [hN2, last_index N (by omega) (by omega)]
      omega
    · intro hnil
      rw [hnil] at hI1
      simp at hI1
      omega
  intro k
  induction k with
  | zero =>
    rw [sparseAfter, sparseAfter, SetBitIterator, SetBitIterator, FSetBitIterator.Begin,
      FSetBitIterator.Begin, hN]
    by_cases hEnd : (s : Int) = a.NumBits
    · simp only [hEnd, ne_eq, not_true_eq_false, if_false]
    · simp only [ne_eq, hEnd, not_false_eq_true, if_true]
      obtain ⟨l1, l2⟩ := hlast s (by omega)
      apply findNextSetBit_agree hT hI hN hW l2
      · simp only [ofIndex_natCast s (by omega)]; omega
      · simp only [ofIndex_natCast s (by omega)]; exact l1
  | succ k ih =>
    rw [sparseAfter, sparseAfter, ih]
    cases hk : a.sparseAfter (s : Int) k with
    | none => rfl
    | some it =>
      simp only []
      have hb : it.toBool b = it.toBool a := by
        unfold FSetBitIterator.toBool; rw [hN]
      rw [hb]
      by_cases ht : it.toBool a = true
      · rw [if_pos ht, if_pos ht]
        obtain ⟨c, c1, c2, c3⟩ := sparseAfter_valid hT hI s hs k it hk
        have hlt : (c : Int) < a.NumBits := by
          unfold FSetBitIterator.toBool at ht; rw [c1] at ht; simpa using ht
        obtain ⟨-, -, hword, -⟩ := c3 hlt
        obtain ⟨l1, l2⟩ := hlast c hlt
        unfold FSetBitIterator.next
        apply findNextSetBit_agree hT hI hN hW l2
        · simp only [hword]; omega
        · simp only [hword]; exact l1
      · rw [if_neg ht, if_neg ht]

/-- C19 (amended): in every state satisfying the structural invariant, (a) `Set(i, v, flag)`
with `0 <= i < 2147483616` reads and writes word `i >> 5` only, and that index is below the
word count after `EnsureCapacity`; (b) dereferencing a dense cursor whose index is in
`[0, Num())` reads a word index below the word count; (c) constructing a sparse cursor at any
start in `[0, Num()]` and advancing it while its boolean conversion is true always succeeds,
from a word index `<= (Num() - 1) / 32`, which is below the word count, and the cursors
obtained are the same for every array that has the same length and the same words up to
index `(Num() - 1) / 32`, whatever else it stores.  No word access falls outside the
vector. -/
theorem word_access_in_range (a : TBitArray) (hT : a.WellTyped) (hI : a.Invariant) :
    (∀ (i : Int) (v f : Bool), 0 ≤ i → i < 2147483616 →
        ∃ (a1 : TBitArray) (w : Nat) (b : TBitArray), a.EnsureCapacity i = some a1
          ∧ 0 ≤ i >>> (5 : Nat) ∧ (i >>> (5 : Nat)).toNat < a1.Data.length
          ∧ readWord a1.Data (i >>> (5 : Nat)) = some w
          ∧ a.Set i v f = some b
          ∧ b.Data = a1.Data.set (i >>> (5 : Nat)).toNat
              (FBitReference.SetBit w (toUInt32 (oneShlInt32 (andInt32 i 31))) v))
      ∧ (∀ (s : Int) (k : Nat), 0 ≤ s → s + (k : Int) < a.Num →
          0 ≤ (Nat.iterate FBitIterator.next k (a.Iterator s)).DWORDIndex
            ∧ (Nat.iterate FBitIterator.next k (a.Iterator s)).DWORDIndex < (a.Data.length : Int)
            ∧ ∃ v, (Nat.iterate FBitIterator.next k (a.Iterator s)).deref a = some v)
      ∧ (∀ s : Int, 0 ≤ s → s ≤ a.Num →
          (∃ it0, a.SetBitIterator s = some it0)
            ∧ (∀ (k : Nat) (it : FSetBitIterator), a.sparseAfter s k = some it →
                it.toBool a = true →
                0 ≤ it.DWORDIndex ∧ it.DWORDIndex ≤ FSetBitIterator.LastDWORDIndex a
                  ∧ FSetBitIterator.LastDWORDIndex a < (a.Data.length : Int)
                  ∧ ∃ it1, it.next a = some it1)
            ∧ (∀ b : TBitArray, b.NumBits = a.NumBits →
                (∀ j : Int, j ≤ FSetBitIterator.LastDWORDIndex a →
                  readWord b.Data j = readWord a.Data j) →
                ∀ k : Nat, b.sparseAfter s k = a.sparseAfter s k)) := by
  have hM := maxBits_le hT hI
  have hI1 := hI.1
  have hI3 := hI.2.2
  refine ⟨?_, ?_, ?_⟩
  · intro i v f h0 h1
    obtain ⟨n, rfl⟩ := Int.eq_ofNat_of_zero_le h0
    have hn : n < 2147483616 := by omega
    have hlen : n / 32 < (a.Data ++ List.replicate (n / 32 + 1 - a.Data.length) 0).length := by
      simp only [List.length_append, List.length_replicate]; omega
    have hmask : toUInt32 (oneShlInt32 (andInt32 (n : Int) (32 - 1)))
        = toUInt32 (oneShlInt32 (andInt32 (n : Int) 31)) := by norm_num
    obtain ⟨b, hb, -⟩ := set_spec hT hI n hn v f
    refine ⟨{ Data := a.Data ++ List.replicate (n / 32 + 1 - a.Data.length) 0,
              NumBits := a.NumBits,
              MaxBits := max a.MaxBits (32 * ((n / 32 + 1 : Nat) : Int)) },
      (a.Data ++ List.replicate (n / 32 + 1 - a.Data.length) 0).getD (n / 32) 0, b,
      ensureCapacity_eq hT hI n hn, ?_, ?_, ?_, hb, ?_⟩
    · rw [shiftRight_five]; omega
    · rw [shiftRight_five, Int.toNat_ofNat]; exact hlen
    · rw [shiftRight_five]; exact readWord_getD _ _ hlen
    · have hb2 := hb
      unfold TBitArray.Set at hb2
      rw [ensureCapacity_eq hT hI n hn] at hb2
      simp only [shiftRight_five, readWord_getD _ _ hlen, hmask] at hb2
      cases hb2
      simp only [shiftRight_five]
  · intro s k h0 h1
    unfold Num at h1
    obtain ⟨n, rfl⟩ := Int.eq_ofNat_of_zero_le h0
    rw [iterate_next a n k (by omega), iterator_natCast a (n + k) (by omega)]
    exact ⟨by simp only []; omega, by simp only []; omega, a.storageBit (n + k),
      dense_deref hI (n + k) (by push_cast; omega)⟩
  · intro s h0 h1
    unfold Num at h1
    obtain ⟨n, rfl⟩ := Int.eq_ofNat_of_zero_le h0
    refine ⟨?_, ?_, ?_⟩
    · obtain ⟨it0, c, e1, -⟩ := begin_spec hT hI n h1
      exact ⟨it0, e1⟩
    · intro k it hk hb
      obtain ⟨c, c1, c2, c3⟩ := sparseAfter_valid hT hI n h1 k it hk
      have hlt : (c : Int) < a.NumBits := by
        unfold FSetBitIterator.toBool at hb; rw [c1] at hb; simpa using hb
      obtain ⟨-, -, hword, -⟩ := c3 hlt
      obtain ⟨it1, -, -, e1, -⟩ := next_spec hT hI it ⟨c, c1, c2, c3⟩ hb
      obtain ⟨N, hN2⟩ := Int.eq_ofNat_of_zero_le hI.2.1
      have hL : FSetBitIterator.LastDWORDIndex a = (((N - 1) / 32 : Nat) : Int) := by
        unfold FSetBitIterator.LastDWORDIndex
        rw [hN2, last_index N (by omega) (by omega)]
      rw [hword, hL]
      exact ⟨by omega, by omega, by omega, it1, e1⟩
    · intro b hN hW k
      exact sparseAfter_agree hT hI hN hW n h1 k

/-- C19 witness: on the array of three words with length 70 and bits 31 and 32 set, bit 200
is set after growth to seven words, the dense cursor at index 64 reads word 2, and the sparse
cursors from start 0 are the same on an array whose words beyond index 2 differ. -/
theorem word_access_in_range_witness :
    (∃ (a1 : TBitArray) (w : Nat) (b : TBitArray),
        (TBitArray.mk [2147483648, 1, 0] 70 96).EnsureCapacity 200 = some a1
          ∧ 0 ≤ (200 : Int) >>> (5 : Nat) ∧ ((200 : Int) >>> (5 : Nat)).toNat < a1.Data.length
          ∧ readWord a1.Data ((200 : Int) >>> (5 : Nat)) = some w
          ∧ (TBitArray.mk [2147483648, 1, 0] 70 96).Set 200 true false = some b
          ∧ b.Data = a1.Data.set ((200 : Int) >>> (5 : Nat)).toNat
              (FBitReference.SetBit w (toUInt32 (oneShlInt32 (andInt32 200 31))) true))
      ∧ (0 ≤ (Nat.iterate FBitIterator.next 4
                ((TBitArray.mk [2147483648, 1, 0] 70 96).Iterator 60)).DWORDIndex
          ∧ (Nat.iterate FBitIterator.next 4
                ((TBitArray.mk [2147483648, 1, 0] 70 96).Iterator 60)).DWORDIndex
              < ((TBitArray.mk [2147483648, 1, 0] 70 96).Data.length : Int)
          ∧ ∃ v, (Nat.iterate FBitIterator.next 4
                ((TBitArray.mk [2147483648, 1, 0] 70 96).Iterator 60)).deref
              (TBitArray.mk [2147483648, 1, 0] 70 96) = some v)
      ∧ (∀ k : Nat, (TBitArray.mk [2147483648, 1, 0, 4294967295, 5] 70 0).sparseAfter 0 k
          = (TBitArray.mk [2147483648, 1, 0] 70 96).sparseAfter 0 k)
      ∧ ((TBitArray.mk [2147483648, 1, 0] 70 96).sparseAfter 0 1).map (fun it => it.DWORDIndex)
          = some 1 :=
  ⟨(word_access_in_range (TBitArray.mk [2147483648, 1, 0] 70 96) (by decide) (by decide)).1
      200 true false (by decide) (by decide),
    (word_access_in_range (TBitArray.mk [2147483648, 1, 0] 70 96) (by decide) (by decide)).2.1
      60 4 (by decide) (by decide),
    ((word_access_in_range (TBitArray.mk [2147483648, 1, 0] 70 96) (by decide) (by decide)).2.2
      0 (by decide) (by decide)).2.2 (TBitArray.mk [2147483648, 1, 0, 4294967295, 5] 70 0) rfl
      (by
        intro j hj
        have hL : FSetBitIterator.LastDWORDIndex (TBitArray.mk [2147483648, 1, 0] 70 96) = 2 := by
          decide
        rw [hL] at hj
        unfold readWord
        by_cases h0 : 0 ≤ j
        · rw [if_pos h0, if_pos h0]
          obtain ⟨n, rfl⟩ := Int.eq_ofNat_of_zero_le h0
          have hn : n ≤ 2 := by omega
          rw [Int.toNat_ofNat]
          interval_cases n <;> rfl
        · rw [if_neg h0, if_neg h0]),
    by decide⟩

/-- C19 counterexample: on the default-constructed array `Set(2147483647, true)` leaves the
vector empty (`Index + 1` wraps, so `EnsureCapacity` returns at once), and the word index
`2147483647 >> 5 = 67108863` it then accesses is not below the word count 0. -/
theorem word_access_in_range_fails :
    TBitArray.empty.WellTyped ∧ TBitArray.empty.Invariant ∧ (0 : Int) ≤ 2147483647
      ∧ TBitArray.empty.EnsureCapacity 2147483647 = some TBitArray.empty
      ∧ (2147483647 : Int) >>> (5 : Nat) = 67108863
      ∧ ¬ (((2147483647 : Int) >>> (5 : Nat)).toNat < TBitArray.empty.Data.length)
      ∧ readWord TBitArray.empty.Data ((2147483647 : Int) >>> (5 : Nat)) = none
      ∧ TBitArray.empty.Set 2147483647 true false = none := by
  refine ⟨by decide, by decide, by decide, by decide, by decide, by decide, by decide, by decide⟩

end TBitArray
